import Mathlib

/-!
Verification of the histogram-construction and row-partitioning subsystems of
the xgboost repository slice, against its natural-language specification.

The development shallowly embeds:
 - the SYCL device histogram builders from plugin/sycl/common/hist_util.cc
   (buffered, local-private-bins and atomic kernel variants, the reduction
   kernel, the dispatcher, and the histogram subtraction primitives), and
 - the row partitioner from src/tree/common_row_partitioner.h
   (FindSplitConditions, the column-split helper, and the phase structure of
   UpdatePosition).

Gradient and hessian values are single- or double-precision floats in the
source; they are modelled here by an arbitrary additive commutative group
(exact arithmetic), which is the reading under which the specification's
"up to floating-point rounding" clauses are exact equalities.  Machine bin
indices are modelled by Nat.  The device kernels are data-parallel; their
lane/work-group loops are serialized in source order, which is sound because
every claim here concerns the value of the resulting histogram and the
accumulated updates commute in exact arithmetic.
-/

/-- Model of xgboost::detail::GradientPairInternal: a (gradient, hessian)
pair.  The first component is the gradient, the second the hessian. -/
abbrev GradientPairT (α : Type) : Type := α × α

/-- Histogram cell update `hist[k] += p` on a histogram modelled as a total
function from bin index to pair. -/
def histAddAt {α : Type} [AddCommGroup α] (hist : Nat → GradientPairT α) (k : Nat)
    (p : GradientPairT α) : Nat → GradientPairT α :=
  fun b => if b = k then hist b + p else hist b

/-- Histogram cell assignment `hist[k] = p`. -/
def histSetAt {α : Type} (hist : Nat → GradientPairT α) (k : Nat)
    (p : GradientPairT α) : Nat → GradientPairT α :=
  fun b => if b = k then p else hist b

/-- Model of sycl::common::GHistIndexMatrix (the binned matrix).
`index_data w` models `index.data<T>()` for the unsigned integer type `T` of
byte width `w` (1, 2 or 4): it returns the flat bin-index array as read with
that width.  `cut_ptrs` models `cut.cut_ptrs_` (per-feature cumulative bin
offsets `offsets[0..F]`), `nbins` the total bin count, and `binTypeSize`
models `index.GetBinTypeSize()` (stored width in bytes). -/
structure GHistIndexMatrix where
  nfeatures : Nat
  row_stride : Nat
  index_data : Nat → Nat → Nat
  cut_ptrs : List Nat
  nbins : Nat
  max_num_bins : Nat
  min_num_bins : Nat
  binTypeSize : Nat

/-- Per-feature cumulative bin offsets read from `cut_ptrs`. -/
def GHistIndexMatrix.offsets (gmat : GHistIndexMatrix) (j : Nat) : Nat :=
  gmat.cut_ptrs.getD j 0

/-- Global bin index of cell (row `r`, column `j`): the stored value, plus
`offsets[j]` in the dense-encoded layout. -/
def cellBin (isDense : Bool) (n_columns : Nat) (gradient_index : Nat → Nat)
    (offsets : Nat → Nat) (r j : Nat) : Nat :=
  let idx_bin := gradient_index (n_columns * r + j)
  if isDense then idx_bin + offsets j else idx_bin

/- ### Generic lemmas about list-range sums and histogram folds -/

theorem list_range_sum_eq {γ : Type} [AddCommMonoid γ] (n : Nat) (f : Nat → γ) :
    ((List.range n).map f).sum = Finset.sum (Finset.range n) f := by
  induction n with
  | zero => simp
  | succ n ih => rw [List.range_succ, Finset.sum_range_succ]; simp [ih]

theorem range_sum_swap {γ : Type} [AddCommMonoid γ] (m n : Nat) (f : Nat → Nat → γ) :
    ((List.range m).map (fun x => ((List.range n).map (fun y => f x y)).sum)).sum
      = ((List.range n).map (fun y => ((List.range m).map (fun x => f x y)).sum)).sum := by
  simp only [list_range_sum_eq]
  exact Finset.sum_comm

theorem sum_range_ite_eq {γ : Type} [AddCommMonoid γ] (n k : Nat) (p : γ) :
    ((List.range n).map (fun bin => if bin = k then p else 0)).sum
      = if k < n then p else 0 := by
  rw [list_range_sum_eq]
  rw [Finset.sum_ite_eq' (Finset.range n) k (fun _ => p)]
  simp

theorem sum_range_const {γ : Type} [AddCommMonoid γ] (n : Nat) (p : γ) :
    ((List.range n).map (fun _ => p)).sum = n • p := by
  rw [list_range_sum_eq]
  simp

/-- Evaluation of a histogram-shaped fold whose step is pointwise addition. -/
theorem foldl_add_eval {α β : Type} [AddCommGroup α] (L : List β)
    (step : (Nat → GradientPairT α) → β → (Nat → GradientPairT α))
    (F : β → Nat → GradientPairT α)
    (hstep : ∀ h c bin, step h c bin = h bin + F c bin)
    (h0 : Nat → GradientPairT α) (bin : Nat) :
    (L.foldl step h0) bin = h0 bin + (L.map (fun c => F c bin)).sum := by
  induction L generalizing h0 with
  | nil => simp
  | cons c L ih =>
    simp only [List.foldl_cons, List.map_cons, List.sum_cons]
    rw [ih, hstep]
    abel

/-- Evaluation of a scalar accumulation fold. -/
theorem foldl_add_scalar {γ β : Type} [AddCommGroup γ] (L : List β)
    (f : β → γ) (a0 : γ) :
    L.foldl (fun acc c => acc + f c) a0 = a0 + (L.map f).sum := by
  induction L generalizing a0 with
  | nil => simp
  | cons c L ih =>
    simp only [List.foldl_cons, List.map_cons, List.sum_cons]
    rw [ih]
    abel

/-- Restricting a guarded range sum to the guard's bound. -/
theorem sum_range_guard {γ : Type} [AddCommGroup γ] (m n : Nat) (hnm : n ≤ m)
    (f : Nat → γ) :
    ((List.range m).map (fun j => if j < n then f j else 0)).sum
      = ((List.range n).map f).sum := by
  obtain ⟨k, rfl⟩ : ∃ k, m = n + k := ⟨m - n, (Nat.add_sub_cancel' hnm).symm⟩
  rw [List.range_add]
  simp only [List.map_append, List.sum_append, List.map_map]
  have h1 : ((List.range n).map (fun j => if j < n then f j else 0)).sum
      = ((List.range n).map f).sum := by
    apply congrArg
    apply List.map_congr_left
    intro j hj
    simp [List.mem_range.mp hj]
  have h2 : ((List.range k).map ((fun j => if j < n then f j else 0) ∘ (fun x => n + x))).sum
      = (0 : γ) := by
    apply List.sum_eq_zero
    intro x hx
    simp only [List.mem_map] at hx
    obtain ⟨y, _, rfl⟩ := hx
    simp
  rw [h1, h2, add_zero]

/-- Re-indexing a blocked double sum as a flat range sum. -/
theorem sum_range_chunks {γ : Type} [AddCommGroup γ] (nb bs : Nat) (g : Nat → γ) :
    ((List.range nb).map (fun block =>
      ((List.range bs).map (fun idx => g (block * bs + idx))).sum)).sum
      = ((List.range (nb * bs)).map g).sum := by
  induction nb with
  | zero => simp
  | succ nb ih =>
    rw [List.range_succ]
    simp only [List.map_append, List.sum_append, List.map_cons, List.map_nil,
      List.sum_cons, List.sum_nil]
    rw [ih]
    have : (nb + 1) * bs = nb * bs + bs := by ring
    rw [this, List.range_add]
    simp only [List.map_append, List.sum_append, List.map_map]
    rw [add_zero]
    apply congrArg
    apply congrArg
    apply List.map_congr_left
    intro idx _
    simp [Function.comp]

/-- Monotone chain for the per-feature offsets. -/
theorem offsets_mono_chain (offsets : Nat → Nat) (F : Nat)
    (hmono : ∀ j, j < F → offsets j ≤ offsets (j + 1)) :
    ∀ a b, a ≤ b → b ≤ F → offsets a ≤ offsets b := by
  intro a b hab hbF
  induction b with
  | zero =>
    have : a = 0 := by omega
    subst this
    exact Nat.le_refl _
  | succ b ih =>
    rcases Nat.lt_or_ge a (b + 1) with hlt | hge
    · have h1 : offsets a ≤ offsets b := ih (by omega) (by omega)
      exact le_trans h1 (hmono b (by omega))
    · have : a = b + 1 := by omega
      subst this
      exact Nat.le_refl _

/- ### Device histogram build kernels (plugin/sycl/common/hist_util.cc) -/

/-- Body of the per-column accumulation loop shared by the buffered kernel
(hist_util.cc:163-171) and the atomic kernel's lane body
(hist_util.cc:299-308): read the stored bin index of cell (row `r`, column
`j`), add `offsets[j]` in the dense layout, and accumulate the row's pair `p`
when the global bin is below `nbins`. -/
def BufferedColStep {α : Type} [AddCommGroup α] (isDense : Bool) (n_columns : Nat)
    (gradient_index : Nat → Nat) (offsets : Nat → Nat) (nbins : Nat)
    (p : GradientPairT α) (r : Nat) :
    (Nat → GradientPairT α) → Nat → (Nat → GradientPairT α) :=
  fun h j =>
    let idx_bin := gradient_index (n_columns * r + j)
    let idx_bin := if isDense then idx_bin + offsets j else idx_bin
    if idx_bin < nbins then histAddAt h idx_bin p else h

/-- Body of the row loop of the buffered BuildHistKernel
(hist_util.cc:153-173): for row index `idx` of block `block`, if the global
position `i` is inside the row set, sweep the columns.  In the source the
work-group lanes stride over the column loop and share the block's slice;
the lanes are serialized here, so the sweep covers all `j < n_columns`. -/
def BufferedRowStep {α : Type} [AddCommGroup α] (isDense : Bool) (n_columns : Nat)
    (pgh : Nat → GradientPairT α) (rid : List Nat) (gradient_index : Nat → Nat)
    (offsets : Nat → Nat) (nbins : Nat) (block_size block : Nat) :
    (Nat → GradientPairT α) → Nat → (Nat → GradientPairT α) :=
  fun hist_local idx =>
    let i := block * block_size + idx
    if i < rid.length then
      (List.range n_columns).foldl
        (BufferedColStep isDense n_columns gradient_index offsets nbins
          (pgh (rid.getD i 0)) (rid.getD i 0)) hist_local
    else hist_local

/-- One block slice of the buffered BuildHistKernel (hist_util.cc:119-182).
The slice starts from zero because the kernel zero-fills the whole scratch
buffer first (`event_fill`). -/
def BuildHistBufferedBlock {α : Type} [AddCommGroup α] (isDense : Bool)
    (n_columns : Nat) (pgh : Nat → GradientPairT α) (rid : List Nat)
    (gradient_index : Nat → Nat) (offsets : Nat → Nat) (nbins : Nat)
    (block_size : Nat) (block : Nat) : Nat → GradientPairT α :=
  (List.range block_size).foldl
    (BufferedRowStep isDense n_columns pgh rid gradient_index offsets nbins
      block_size block)
    (fun _ => 0)

/-- Model of ReduceHist (hist_util.cc:95-116): for a bin, sum the per-block
slices of the scratch buffer. -/
def ReduceHist {α : Type} [AddCommGroup α] (hist_buffer : Nat → Nat → GradientPairT α)
    (nblocks : Nat) (idx_bin : Nat) : GradientPairT α :=
  (List.range nblocks).foldl (fun gpair j => gpair + hist_buffer j idx_bin) 0

/-- The buffered BuildHistKernel variant (hist_util.cc:119-182): zero-fill the
scratch, accumulate per-block slices, then reduce the blocks. -/
def BuildHistKernelBuffered {α : Type} [AddCommGroup α] (isDense : Bool)
    (n_columns : Nat) (pgh : Nat → GradientPairT α) (rid : List Nat)
    (gradient_index : Nat → Nat) (offsets : Nat → Nat) (nbins : Nat)
    (block_size nblocks : Nat) : Nat → GradientPairT α :=
  fun idx_bin =>
    ReduceHist (fun block => BuildHistBufferedBlock isDense n_columns pgh rid
      gradient_index offsets nbins block_size block) nblocks idx_bin

/-- Body of the zero-assignment loop over a feature's local bins in
BuildHistKernelLocal (hist_util.cc:227-229). -/
def InitFastStep {α : Type} [AddCommGroup α] :
    (Nat → GradientPairT α) → Nat → (Nat → GradientPairT α) :=
  fun hf bin => histSetAt hf bin 0

/-- Body of the row loop of BuildHistKernelLocal for one (block, feature)
pair (hist_util.cc:231-245): accumulate the row's pair into `hist_fast` at
the stored feature-local bin index, with no offset and no bin guard. -/
def LocalFastRowStep {α : Type} [AddCommGroup α] (n_columns : Nat)
    (pgh : Nat → GradientPairT α) (rid : List Nat) (gradient_index : Nat → Nat)
    (block_size block fid : Nat) :
    (Nat → GradientPairT α) → Nat → (Nat → GradientPairT α) :=
  fun hist_fast idx =>
    let i := block * block_size + idx
    if i < rid.length then
      let row_id := rid.getD i 0
      histAddAt hist_fast (gradient_index (n_columns * row_id + fid)) (pgh row_id)
    else hist_fast

/-- The per-lane private array of BuildHistKernelLocal (hist_util.cc:219-245)
for one (block, feature) pair: `hist_fast` starts as arbitrary uninitialized
storage `junk`, the entries below `n_bins_feature` are assigned zero, then the
block's rows accumulate into it. -/
def BuildHistLocalFast {α : Type} [AddCommGroup α] (n_columns : Nat)
    (pgh : Nat → GradientPairT α) (rid : List Nat) (gradient_index : Nat → Nat)
    (n_bins_feature : Nat) (block_size block fid : Nat)
    (junk : Nat → GradientPairT α) : Nat → GradientPairT α :=
  (List.range block_size).foldl
    (LocalFastRowStep n_columns pgh rid gradient_index block_size block fid)
    ((List.range n_bins_feature).foldl InitFastStep junk)

/-- Body of the write-back loop of BuildHistKernelLocal
(hist_util.cc:246-248): assign `hist_local[bin + base] = v bin`. -/
def WriteOutStep {α : Type} (base : Nat) (v : Nat → GradientPairT α) :
    (Nat → GradientPairT α) → Nat → (Nat → GradientPairT α) :=
  fun h bin => histSetAt h (bin + base) (v bin)

/-- Body of the feature loop of BuildHistKernelLocal (hist_util.cc:222-249):
build the feature's `hist_fast` and assign its `n_bins_feature` entries into
the block slice at `bin + offsets[fid]`.  The lanes stride over the feature
loop in the source and are serialized here. -/
def LocalFeatureStep {α : Type} [AddCommGroup α] (n_columns : Nat)
    (pgh : Nat → GradientPairT α) (rid : List Nat) (gradient_index : Nat → Nat)
    (offsets : Nat → Nat) (block_size block : Nat)
    (junk : Nat → Nat → GradientPairT α) :
    (Nat → GradientPairT α) → Nat → (Nat → GradientPairT α) :=
  fun hist_local fid =>
    let n_bins_feature := offsets (fid + 1) - offsets fid
    let hist_fast := BuildHistLocalFast n_columns pgh rid gradient_index
      n_bins_feature block_size block fid (junk fid)
    (List.range n_bins_feature).foldl (WriteOutStep (offsets fid) hist_fast)
      hist_local

/-- One block slice of BuildHistKernelLocal (hist_util.cc:185-257).  Unlike
the buffered variant this kernel does not zero-fill the scratch buffer, so
the slice starts from the caller-supplied prior content `hist0`. -/
def BuildHistLocalBlock {α : Type} [AddCommGroup α] (n_columns : Nat)
    (pgh : Nat → GradientPairT α) (rid : List Nat) (gradient_index : Nat → Nat)
    (offsets : Nat → Nat) (block_size block : Nat)
    (junk : Nat → Nat → GradientPairT α) (hist0 : Nat → GradientPairT α) :
    Nat → GradientPairT α :=
  (List.range n_columns).foldl
    (LocalFeatureStep n_columns pgh rid gradient_index offsets block_size block
      junk)
    hist0

/-- BuildHistKernelLocal (hist_util.cc:185-257) followed by ReduceHist:
per-block accumulation into the (not zero-filled) scratch whose prior content
is `hist_buffer0`, then reduction over the blocks.  `junk` is the arbitrary
initial content of each lane's `hist_fast` array, per block and feature. -/
def BuildHistKernelLocal {α : Type} [AddCommGroup α] (n_columns : Nat)
    (pgh : Nat → GradientPairT α) (rid : List Nat) (gradient_index : Nat → Nat)
    (offsets : Nat → Nat) (nbins : Nat) (block_size nblocks : Nat)
    (hist_buffer0 : Nat → Nat → GradientPairT α)
    (junk : Nat → Nat → Nat → GradientPairT α) : Nat → GradientPairT α :=
  fun idx_bin =>
    ReduceHist (fun block => BuildHistLocalBlock n_columns pgh rid
      gradient_index offsets block_size block (junk block)
      (hist_buffer0 block)) nblocks idx_bin

/-- Body of one lane of the atomic BuildHistKernel (hist_util.cc:296-309):
`j = group_id * work_group_size + local_id`; lanes with `j < n_columns`
atomically accumulate into the output histogram at the guarded global bin. -/
def AtomicLaneStep {α : Type} [AddCommGroup α] (isDense : Bool) (n_columns : Nat)
    (gradient_index : Nat → Nat) (offsets : Nat → Nat) (nbins : Nat)
    (p : GradientPairT α) (r : Nat) :
    (Nat → GradientPairT α) → Nat → (Nat → GradientPairT α) :=
  fun h j =>
    if j < n_columns then
      let idx_bin := gradient_index (n_columns * r + j)
      let idx_bin := if isDense then idx_bin + offsets j else idx_bin
      if idx_bin < nbins then histAddAt h idx_bin p else h
    else h

/-- The atomic BuildHistKernel variant (hist_util.cc:260-313): zero-fill the
output histogram, then run a `size × n_work_groups * work_group_size` grid of
(row, lane) atomic accumulations, serialized here. -/
def BuildHistKernelAtomic {α : Type} [AddCommGroup α] (isDense : Bool)
    (n_columns : Nat) (pgh : Nat → GradientPairT α) (rid : List Nat)
    (gradient_index : Nat → Nat) (offsets : Nat → Nat) (nbins : Nat)
    (work_group_size : Nat) : Nat → GradientPairT α :=
  let n_work_groups := n_columns / work_group_size +
    (if n_columns % work_group_size > 0 then 1 else 0)
  (List.range rid.length).foldl (fun hist_data i =>
    (List.range (n_work_groups * work_group_size)).foldl
      (AtomicLaneStep isDense n_columns gradient_index offsets nbins
        (pgh (rid.getD i 0)) (rid.getD i 0)) hist_data)
    (fun _ => 0)

/-- Guarded contribution of cell (row `r`, column `j`) to a bin: the row pair
when the cell's global bin is valid and equals the bin, else zero. -/
def cellTerm {α : Type} [AddCommGroup α] (isDense : Bool) (n_columns : Nat)
    (gradient_index : Nat → Nat) (offsets : Nat → Nat) (nbins : Nat)
    (p : GradientPairT α) (r j bin : Nat) : GradientPairT α :=
  if cellBin isDense n_columns gradient_index offsets r j < nbins then
    (if bin = cellBin isDense n_columns gradient_index offsets r j then p else 0)
  else 0

/-- Reference value of a built histogram at a bin: the sum over all rows of
the row set and all columns of the guarded cell contributions. -/
def histSpec {α : Type} [AddCommGroup α] (isDense : Bool) (n_columns : Nat)
    (pgh : Nat → GradientPairT α) (rid : List Nat) (gradient_index : Nat → Nat)
    (offsets : Nat → Nat) (nbins : Nat) (bin : Nat) : GradientPairT α :=
  ((List.range rid.length).map (fun i =>
    ((List.range n_columns).map (fun j =>
      cellTerm isDense n_columns gradient_index offsets nbins
        (pgh (rid.getD i 0)) (rid.getD i 0) j bin)).sum)).sum

/-- Guarded contribution of one whole row (by global position `i` in the row
set) to a bin. -/
def rowTerm {α : Type} [AddCommGroup α] (isDense : Bool) (n_columns : Nat)
    (pgh : Nat → GradientPairT α) (rid : List Nat) (gradient_index : Nat → Nat)
    (offsets : Nat → Nat) (nbins : Nat) (i bin : Nat) : GradientPairT α :=
  if i < rid.length then
    ((List.range n_columns).map (fun j =>
      cellTerm isDense n_columns gradient_index offsets nbins
        (pgh (rid.getD i 0)) (rid.getD i 0) j bin)).sum
  else 0

/- ### Pointwise evaluation of the kernel folds -/

theorem guardAdd_eval {α : Type} [AddCommGroup α] (h : Nat → GradientPairT α)
    (c : Nat) (p : GradientPairT α) (cond : Prop) [Decidable cond] (bin : Nat) :
    (if cond then histAddAt h c p else h) bin
      = h bin + (if cond then (if bin = c then p else 0) else 0) := by
  by_cases hc : cond <;> by_cases hb : bin = c <;> simp [histAddAt, hc, hb]

theorem BufferedColStep_eval {α : Type} [AddCommGroup α] (isDense : Bool)
    (n_columns : Nat) (gradient_index : Nat → Nat) (offsets : Nat → Nat)
    (nbins : Nat) (p : GradientPairT α) (r : Nat) (h : Nat → GradientPairT α)
    (j bin : Nat) :
    BufferedColStep isDense n_columns gradient_index offsets nbins p r h j bin
      = h bin + cellTerm isDense n_columns gradient_index offsets nbins p r j bin := by
  simp only [BufferedColStep, cellTerm, cellBin]
  apply guardAdd_eval

theorem BufferedColFold_eval {α : Type} [AddCommGroup α] (isDense : Bool)
    (n_columns : Nat) (gradient_index : Nat → Nat) (offsets : Nat → Nat)
    (nbins : Nat) (p : GradientPairT α) (r : Nat) (h0 : Nat → GradientPairT α)
    (bin : Nat) :
    ((List.range n_columns).foldl
      (BufferedColStep isDense n_columns gradient_index offsets nbins p r) h0) bin
      = h0 bin + ((List.range n_columns).map (fun j =>
          cellTerm isDense n_columns gradient_index offsets nbins p r j bin)).sum :=
  foldl_add_eval _ _ _
    (fun h j b => BufferedColStep_eval isDense n_columns gradient_index offsets
      nbins p r h j b) h0 bin

theorem BufferedRowStep_eval {α : Type} [AddCommGroup α] (isDense : Bool)
    (n_columns : Nat) (pgh : Nat → GradientPairT α) (rid : List Nat)
    (gradient_index : Nat → Nat) (offsets : Nat → Nat) (nbins : Nat)
    (block_size block : Nat) (h : Nat → GradientPairT α) (idx bin : Nat) :
    BufferedRowStep isDense n_columns pgh rid gradient_index offsets nbins
      block_size block h idx bin
      = h bin + rowTerm isDense n_columns pgh rid gradient_index offsets nbins
          (block * block_size + idx) bin := by
  simp only [BufferedRowStep, rowTerm]
  by_cases hi : block * block_size + idx < rid.length
  · simp only [if_pos hi]
    rw [BufferedColFold_eval]
  · simp [if_neg hi]

theorem BuildHistBufferedBlock_eval {α : Type} [AddCommGroup α] (isDense : Bool)
    (n_columns : Nat) (pgh : Nat → GradientPairT α) (rid : List Nat)
    (gradient_index : Nat → Nat) (offsets : Nat → Nat) (nbins : Nat)
    (block_size block bin : Nat) :
    BuildHistBufferedBlock isDense n_columns pgh rid gradient_index offsets
      nbins block_size block bin
      = ((List.range block_size).map (fun idx =>
          rowTerm isDense n_columns pgh rid gradient_index offsets nbins
            (block * block_size + idx) bin)).sum := by
  unfold BuildHistBufferedBlock
  rw [foldl_add_eval _ _ _
    (fun h idx b => BufferedRowStep_eval isDense n_columns pgh rid
      gradient_index offsets nbins block_size block h idx b) _ bin]
  simp

theorem ReduceHist_eval {α : Type} [AddCommGroup α]
    (hist_buffer : Nat → Nat → GradientPairT α) (nblocks bin : Nat) :
    ReduceHist hist_buffer nblocks bin
      = ((List.range nblocks).map (fun j => hist_buffer j bin)).sum := by
  unfold ReduceHist
  rw [foldl_add_scalar]
  simp

/-- The buffered kernel computes the reference histogram whenever the blocks
cover the row set. -/
theorem BuildHistKernelBuffered_eq_histSpec {α : Type} [AddCommGroup α]
    (isDense : Bool) (n_columns : Nat) (pgh : Nat → GradientPairT α)
    (rid : List Nat) (gradient_index : Nat → Nat) (offsets : Nat → Nat)
    (nbins block_size nblocks : Nat)
    (hcover : rid.length ≤ nblocks * block_size) (bin : Nat) :
    BuildHistKernelBuffered isDense n_columns pgh rid gradient_index offsets
      nbins block_size nblocks bin
      = histSpec isDense n_columns pgh rid gradient_index offsets nbins bin := by
  unfold BuildHistKernelBuffered
  rw [ReduceHist_eval]
  have h1 : ((List.range nblocks).map (fun block =>
      BuildHistBufferedBlock isDense n_columns pgh rid gradient_index offsets
        nbins block_size block bin)).sum
      = ((List.range nblocks).map (fun block =>
          ((List.range block_size).map (fun idx =>
            rowTerm isDense n_columns pgh rid gradient_index offsets nbins
              (block * block_size + idx) bin)).sum)).sum := by
    apply congrArg
    apply List.map_congr_left
    intro block _
    rw [BuildHistBufferedBlock_eval]
  rw [h1]
  rw [sum_range_chunks nblocks block_size
    (fun i => rowTerm isDense n_columns pgh rid gradient_index offsets nbins i bin)]
  unfold rowTerm
  rw [sum_range_guard _ _ hcover]
  rfl

theorem AtomicLaneStep_eval {α : Type} [AddCommGroup α] (isDense : Bool)
    (n_columns : Nat) (gradient_index : Nat → Nat) (offsets : Nat → Nat)
    (nbins : Nat) (p : GradientPairT α) (r : Nat) (h : Nat → GradientPairT α)
    (j bin : Nat) :
    AtomicLaneStep isDense n_columns gradient_index offsets nbins p r h j bin
      = h bin + (if j < n_columns then
          cellTerm isDense n_columns gradient_index offsets nbins p r j bin
        else 0) := by
  simp only [AtomicLaneStep, cellTerm, cellBin]
  by_cases hj : j < n_columns
  · simp only [if_pos hj]
    apply guardAdd_eval
  · simp [if_neg hj]

theorem n_columns_le_lanes (n_columns wgs : Nat) (hw : 0 < wgs) :
    n_columns ≤ (n_columns / wgs + (if n_columns % wgs > 0 then 1 else 0)) * wgs := by
  have hdm := Nat.div_add_mod n_columns wgs
  by_cases hmod : n_columns % wgs > 0
  · rw [if_pos hmod, Nat.add_mul, one_mul]
    have hlt : n_columns % wgs < wgs := Nat.mod_lt _ hw
    have h2 : wgs * (n_columns / wgs) = n_columns / wgs * wgs := Nat.mul_comm _ _
    omega
  · rw [if_neg hmod, Nat.add_zero]
    have h0 : n_columns % wgs = 0 := by omega
    have h2 : wgs * (n_columns / wgs) = n_columns / wgs * wgs := Nat.mul_comm _ _
    omega

/-- The atomic kernel computes the reference histogram for any positive
work-group size. -/
theorem BuildHistKernelAtomic_eq_histSpec {α : Type} [AddCommGroup α]
    (isDense : Bool) (n_columns : Nat) (pgh : Nat → GradientPairT α)
    (rid : List Nat) (gradient_index : Nat → Nat) (offsets : Nat → Nat)
    (nbins work_group_size : Nat) (hw : 0 < work_group_size) (bin : Nat) :
    BuildHistKernelAtomic isDense n_columns pgh rid gradient_index offsets
      nbins work_group_size bin
      = histSpec isDense n_columns pgh rid gradient_index offsets nbins bin := by
  unfold BuildHistKernelAtomic
  rw [foldl_add_eval _ _
    (fun i b => ((List.range ((n_columns / work_group_size +
        (if n_columns % work_group_size > 0 then 1 else 0)) * work_group_size)).map
      (fun j => if j < n_columns then
          cellTerm isDense n_columns gradient_index offsets nbins
            (pgh (rid.getD i 0)) (rid.getD i 0) j b
        else 0)).sum)
    ?hstep _ bin]
  case hstep =>
    intro h i b
    rw [foldl_add_eval _ _ _
      (fun hh j bb => AtomicLaneStep_eval isDense n_columns gradient_index
        offsets nbins (pgh (rid.getD i 0)) (rid.getD i 0) hh j bb) h b]
  simp only [Pi.zero_apply, zero_add]
  unfold histSpec
  apply congrArg
  apply List.map_congr_left
  intro i _
  rw [sum_range_guard _ _ (n_columns_le_lanes n_columns work_group_size hw)]

/- ### Evaluation of the local-private-bins kernel -/

theorem foldl_InitFastStep_eval {α : Type} [AddCommGroup α] (n : Nat)
    (junk : Nat → GradientPairT α) (bin : Nat) :
    ((List.range n).foldl InitFastStep junk) bin
      = if bin < n then 0 else junk bin := by
  induction n with
  | zero => simp
  | succ n ih =>
    rw [List.range_succ, List.foldl_append]
    simp only [List.foldl_cons, List.foldl_nil]
    by_cases hb : bin = n
    · simp only [InitFastStep, histSetAt, if_pos hb]
      rw [if_pos (by omega)]
    · simp only [InitFastStep, histSetAt, if_neg hb]
      rw [ih]
      by_cases hlt : bin < n
      · rw [if_pos hlt, if_pos (by omega)]
      · rw [if_neg hlt, if_neg (by omega)]

theorem foldl_WriteOutStep_eval {α : Type} [AddCommGroup α] (base n : Nat)
    (v : Nat → GradientPairT α) (h0 : Nat → GradientPairT α) (bin : Nat) :
    ((List.range n).foldl (WriteOutStep base v) h0) bin
      = if base ≤ bin ∧ bin < base + n then v (bin - base) else h0 bin := by
  induction n with
  | zero =>
    simp only [List.range_zero, List.foldl_nil]
    rw [if_neg (by omega)]
  | succ n ih =>
    rw [List.range_succ, List.foldl_append]
    simp only [List.foldl_cons, List.foldl_nil]
    by_cases hb : bin = n + base
    · simp only [WriteOutStep, histSetAt, if_pos hb]
      rw [if_pos (by omega)]
      have hnb : bin - base = n := by omega
      rw [hnb]
    · simp only [WriteOutStep, histSetAt, if_neg hb]
      rw [ih]
      by_cases hg : base ≤ bin ∧ bin < base + n
      · rw [if_pos hg, if_pos (by omega)]
      · rw [if_neg hg, if_neg (by omega)]

/-- Contribution of block row `idx` to the feature-local bin `lb` of the
per-lane `hist_fast` array. -/
def localFastTerm {α : Type} [AddCommGroup α] (n_columns : Nat)
    (pgh : Nat → GradientPairT α) (rid : List Nat) (gradient_index : Nat → Nat)
    (block_size block fid idx lb : Nat) : GradientPairT α :=
  if block * block_size + idx < rid.length then
    (if lb = gradient_index
        (n_columns * rid.getD (block * block_size + idx) 0 + fid) then
      pgh (rid.getD (block * block_size + idx) 0)
    else 0)
  else 0

theorem LocalFastRowStep_eval {α : Type} [AddCommGroup α] (n_columns : Nat)
    (pgh : Nat → GradientPairT α) (rid : List Nat) (gradient_index : Nat → Nat)
    (block_size block fid : Nat) (hf : Nat → GradientPairT α) (idx lb : Nat) :
    LocalFastRowStep n_columns pgh rid gradient_index block_size block fid hf idx lb
      = hf lb + localFastTerm n_columns pgh rid gradient_index block_size block
          fid idx lb := by
  simp only [LocalFastRowStep, localFastTerm]
  apply guardAdd_eval

theorem BuildHistLocalFast_eval {α : Type} [AddCommGroup α] (n_columns : Nat)
    (pgh : Nat → GradientPairT α) (rid : List Nat) (gradient_index : Nat → Nat)
    (n_bins_feature block_size block fid : Nat) (junk : Nat → GradientPairT α)
    (lb : Nat) :
    BuildHistLocalFast n_columns pgh rid gradient_index n_bins_feature
      block_size block fid junk lb
      = (if lb < n_bins_feature then 0 else junk lb)
        + ((List.range block_size).map (fun idx =>
            localFastTerm n_columns pgh rid gradient_index block_size block
              fid idx lb)).sum := by
  unfold BuildHistLocalFast
  rw [foldl_add_eval _ _ _
    (fun hf idx b => LocalFastRowStep_eval n_columns pgh rid gradient_index
      block_size block fid hf idx b) _ lb]
  rw [foldl_InitFastStep_eval]

/-- Value written for feature `fid` at histogram bin `bin` by the local
kernel's write-back, when `bin` lies in the feature's offset range. -/
def localBlockTerm {α : Type} [AddCommGroup α] (n_columns : Nat)
    (pgh : Nat → GradientPairT α) (rid : List Nat) (gradient_index : Nat → Nat)
    (offsets : Nat → Nat) (block_size block fid bin : Nat) : GradientPairT α :=
  if offsets fid ≤ bin ∧ bin < offsets (fid + 1) then
    ((List.range block_size).map (fun idx =>
      localFastTerm n_columns pgh rid gradient_index block_size block fid idx
        (bin - offsets fid))).sum
  else 0

/-- Strengthened characterization of the local kernel's feature fold: after
processing the first `k` features, bins inside `[offsets 0, offsets k)` hold
the feature write-backs and all other bins still hold the prior scratch
content. -/
theorem LocalFeatureFold_eval {α : Type} [AddCommGroup α] (n_columns : Nat)
    (pgh : Nat → GradientPairT α) (rid : List Nat) (gradient_index : Nat → Nat)
    (offsets : Nat → Nat) (block_size block : Nat)
    (junk : Nat → Nat → GradientPairT α)
    (hmono : ∀ j, j < n_columns → offsets j ≤ offsets (j + 1)) :
    ∀ k, k ≤ n_columns → ∀ hist0 : Nat → GradientPairT α, ∀ bin,
    ((List.range k).foldl
      (LocalFeatureStep n_columns pgh rid gradient_index offsets block_size
        block junk) hist0) bin
      = if offsets 0 ≤ bin ∧ bin < offsets k then
          ((List.range k).map (fun fid =>
            localBlockTerm n_columns pgh rid gradient_index offsets block_size
              block fid bin)).sum
        else hist0 bin := by
  intro k
  induction k with
  | zero =>
    intro _ hist0 bin
    simp only [List.range_zero, List.foldl_nil]
    rw [if_neg (by omega)]
  | succ k ih =>
    intro hk hist0 bin
    have hkc : k < n_columns := by omega
    have hstep := hmono k hkc
    rw [List.range_succ, List.foldl_append]
    simp only [List.foldl_cons, List.foldl_nil]
    have hfeat : LocalFeatureStep n_columns pgh rid gradient_index offsets
        block_size block junk
        ((List.range k).foldl
          (LocalFeatureStep n_columns pgh rid gradient_index offsets block_size
            block junk) hist0) k bin
        = if offsets k ≤ bin ∧ bin < offsets k + (offsets (k + 1) - offsets k) then
            BuildHistLocalFast n_columns pgh rid gradient_index
              (offsets (k + 1) - offsets k) block_size block k (junk k)
              (bin - offsets k)
          else ((List.range k).foldl
            (LocalFeatureStep n_columns pgh rid gradient_index offsets
              block_size block junk) hist0) bin := by
      simp only [LocalFeatureStep]
      rw [foldl_WriteOutStep_eval]
    rw [hfeat]
    by_cases hg : offsets k ≤ bin ∧ bin < offsets (k + 1)
    · rw [if_pos (by omega)]
      have hlb : bin - offsets k < offsets (k + 1) - offsets k := by omega
      rw [BuildHistLocalFast_eval, if_pos hlb, zero_add]
      rw [if_pos ⟨le_trans (offsets_mono_chain offsets n_columns hmono 0 k
        (by omega) (by omega)) hg.1, by omega⟩]
      rw [List.map_append, List.sum_append]
      have hzero : ((List.range k).map (fun fid =>
          localBlockTerm n_columns pgh rid gradient_index offsets block_size
            block fid bin)).sum = 0 := by
        apply List.sum_eq_zero
        intro x hx
        simp only [List.mem_map, List.mem_range] at hx
        obtain ⟨fid, hfid, rfl⟩ := hx
        have hle : offsets (fid + 1) ≤ offsets k :=
          offsets_mono_chain offsets n_columns hmono (fid + 1) k (by omega)
            (by omega)
        unfold localBlockTerm
        rw [if_neg (by omega)]
      rw [hzero, zero_add]
      simp only [List.map_cons, List.map_nil, List.sum_cons, List.sum_nil,
        add_zero]
      unfold localBlockTerm
      rw [if_pos hg]
    · rw [if_neg (by omega)]
      rw [ih (by omega) hist0 bin]
      by_cases hg2 : offsets 0 ≤ bin ∧ bin < offsets k
      · rw [if_pos hg2, if_pos (by omega)]
        rw [List.map_append, List.sum_append]
        simp only [List.map_cons, List.map_nil, List.sum_cons, List.sum_nil,
          add_zero]
        have hlast : localBlockTerm n_columns pgh rid gradient_index offsets
            block_size block k bin = 0 := by
          unfold localBlockTerm
          rw [if_neg (by omega)]
        rw [hlast, add_zero]
      · rw [if_neg hg2]
        rw [if_neg (by omega)]

theorem ite_sum_push {γ β : Type} [AddCommGroup γ] (c : Prop) [Decidable c]
    (L : List β) (f : β → γ) :
    (if c then (L.map f).sum else 0) = (L.map (fun x => if c then f x else 0)).sum := by
  by_cases hc : c
  · simp [hc]
  · simp only [if_neg hc]
    symm
    apply List.sum_eq_zero
    intro x hx
    simp only [List.mem_map] at hx
    obtain ⟨y, _, rfl⟩ := hx
    simp [hc]

/-- When every histogram bin is covered by the offset ranges, a block slice of
the local kernel is fully overwritten: its value does not depend on the prior
scratch content `hist0`. -/
theorem BuildHistLocalBlock_covered_eval {α : Type} [AddCommGroup α]
    (n_columns : Nat) (pgh : Nat → GradientPairT α) (rid : List Nat)
    (gradient_index : Nat → Nat) (offsets : Nat → Nat) (block_size block : Nat)
    (junk : Nat → Nat → GradientPairT α) (hist0 : Nat → GradientPairT α)
    (hmono : ∀ j, j < n_columns → offsets j ≤ offsets (j + 1))
    (h00 : offsets 0 = 0) (bin : Nat) (hbin : bin < offsets n_columns) :
    BuildHistLocalBlock n_columns pgh rid gradient_index offsets block_size
      block junk hist0 bin
      = ((List.range n_columns).map (fun fid =>
          localBlockTerm n_columns pgh rid gradient_index offsets block_size
            block fid bin)).sum := by
  unfold BuildHistLocalBlock
  rw [LocalFeatureFold_eval n_columns pgh rid gradient_index offsets block_size
    block junk hmono n_columns (Nat.le_refl _) hist0 bin]
  rw [if_pos ⟨by omega, hbin⟩]

theorem cellBin_dense (n_columns : Nat) (gradient_index offsets : Nat → Nat)
    (r j : Nat) :
    cellBin true n_columns gradient_index offsets r j
      = gradient_index (n_columns * r + j) + offsets j := by
  simp [cellBin]

/-- Per-cell agreement between the local kernel's write-back term and the
buffered kernel's guarded cell contribution in the dense layout, given that
every stored bin index lies below its feature's bin count. -/
theorem localTerm_eq_cellTerm {α : Type} [AddCommGroup α] (n_columns : Nat)
    (pgh : Nat → GradientPairT α) (rid : List Nat) (gradient_index : Nat → Nat)
    (offsets : Nat → Nat) (nbins block_size block : Nat)
    (hmono : ∀ j, j < n_columns → offsets j ≤ offsets (j + 1))
    (hFn : offsets n_columns = nbins)
    (hcell : ∀ i, i < rid.length → ∀ j, j < n_columns →
      gradient_index (n_columns * rid.getD i 0 + j)
        < offsets (j + 1) - offsets j)
    (j : Nat) (hj : j < n_columns) (idx bin : Nat) :
    (if offsets j ≤ bin ∧ bin < offsets (j + 1) then
      localFastTerm n_columns pgh rid gradient_index block_size block j idx
        (bin - offsets j)
    else 0)
      = (if block * block_size + idx < rid.length then
          cellTerm true n_columns gradient_index offsets nbins
            (pgh (rid.getD (block * block_size + idx) 0))
            (rid.getD (block * block_size + idx) 0) j bin
        else 0) := by
  by_cases hi : block * block_size + idx < rid.length
  · have hv := hcell (block * block_size + idx) hi j hj
    have hchain : offsets (j + 1) ≤ offsets n_columns :=
      offsets_mono_chain offsets n_columns hmono (j + 1) n_columns (by omega)
        (Nat.le_refl _)
    have hjm := hmono j hj
    rw [if_pos hi]
    unfold localFastTerm cellTerm
    rw [if_pos hi, cellBin_dense]
    rw [if_pos (show (gradient_index (n_columns * rid.getD (block * block_size + idx) 0 + j)
      + offsets j) < nbins by omega)]
    by_cases hb : bin = gradient_index
        (n_columns * rid.getD (block * block_size + idx) 0 + j) + offsets j
    · rw [if_pos hb]
      rw [if_pos (show offsets j ≤ bin ∧ bin < offsets (j + 1) by omega)]
      rw [if_pos (by omega)]
    · rw [if_neg hb]
      by_cases hg : offsets j ≤ bin ∧ bin < offsets (j + 1)
      · rw [if_pos hg]
        rw [if_neg (by omega)]
      · rw [if_neg hg]
  · rw [if_neg hi]
    unfold localFastTerm
    rw [if_neg hi]
    simp

/-- Pointwise agreement of a block slice of the local and buffered kernels in
the dense layout, for bins below `nbins`. -/
theorem BuildHistLocalBlock_eq_bufferedBlock {α : Type} [AddCommGroup α]
    (n_columns : Nat) (pgh : Nat → GradientPairT α) (rid : List Nat)
    (gradient_index : Nat → Nat) (offsets : Nat → Nat)
    (nbins block_size block : Nat) (junk : Nat → Nat → GradientPairT α)
    (hist0 : Nat → GradientPairT α)
    (hmono : ∀ j, j < n_columns → offsets j ≤ offsets (j + 1))
    (h00 : offsets 0 = 0) (hFn : offsets n_columns = nbins)
    (hcell : ∀ i, i < rid.length → ∀ j, j < n_columns →
      gradient_index (n_columns * rid.getD i 0 + j)
        < offsets (j + 1) - offsets j)
    (bin : Nat) (hbin : bin < nbins) :
    BuildHistLocalBlock n_columns pgh rid gradient_index offsets block_size
      block junk hist0 bin
      = BuildHistBufferedBlock true n_columns pgh rid gradient_index offsets
          nbins block_size block bin := by
  rw [BuildHistLocalBlock_covered_eval n_columns pgh rid gradient_index offsets
    block_size block junk hist0 hmono h00 bin (by omega)]
  rw [BuildHistBufferedBlock_eval]
  have hL : ((List.range n_columns).map (fun fid =>
      localBlockTerm n_columns pgh rid gradient_index offsets block_size block
        fid bin)).sum
      = ((List.range n_columns).map (fun fid =>
          ((List.range block_size).map (fun idx =>
            if offsets fid ≤ bin ∧ bin < offsets (fid + 1) then
              localFastTerm n_columns pgh rid gradient_index block_size block
                fid idx (bin - offsets fid)
            else 0)).sum)).sum := by
    apply congrArg
    apply List.map_congr_left
    intro fid _
    unfold localBlockTerm
    apply ite_sum_push
  rw [hL]
  have hM : ((List.range n_columns).map (fun fid =>
      ((List.range block_size).map (fun idx =>
        if offsets fid ≤ bin ∧ bin < offsets (fid + 1) then
          localFastTerm n_columns pgh rid gradient_index block_size block fid
            idx (bin - offsets fid)
        else 0)).sum)).sum
      = ((List.range n_columns).map (fun fid =>
          ((List.range block_size).map (fun idx =>
            if block * block_size + idx < rid.length then
              cellTerm true n_columns gradient_index offsets nbins
                (pgh (rid.getD (block * block_size + idx) 0))
                (rid.getD (block * block_size + idx) 0) fid bin
            else 0)).sum)).sum := by
    apply congrArg
    apply List.map_congr_left
    intro fid hfid
    apply congrArg
    apply List.map_congr_left
    intro idx _
    exact localTerm_eq_cellTerm n_columns pgh rid gradient_index offsets nbins
      block_size block hmono hFn hcell fid (List.mem_range.mp hfid) idx bin
  rw [hM]
  rw [range_sum_swap]
  apply congrArg
  apply List.map_congr_left
  intro idx _
  unfold rowTerm
  symm
  apply ite_sum_push

/-- Pointwise agreement of the full local and buffered kernels in the dense
layout, for bins below `nbins`, for any prior scratch content and any
uninitialized `hist_fast` content. -/
theorem BuildHistKernelLocal_eq_buffered {α : Type} [AddCommGroup α]
    (n_columns : Nat) (pgh : Nat → GradientPairT α) (rid : List Nat)
    (gradient_index : Nat → Nat) (offsets : Nat → Nat)
    (nbins block_size nblocks : Nat)
    (hist_buffer0 : Nat → Nat → GradientPairT α)
    (junk : Nat → Nat → Nat → GradientPairT α)
    (hmono : ∀ j, j < n_columns → offsets j ≤ offsets (j + 1))
    (h00 : offsets 0 = 0) (hFn : offsets n_columns = nbins)
    (hcell : ∀ i, i < rid.length → ∀ j, j < n_columns →
      gradient_index (n_columns * rid.getD i 0 + j)
        < offsets (j + 1) - offsets j)
    (bin : Nat) (hbin : bin < nbins) :
    BuildHistKernelLocal n_columns pgh rid gradient_index offsets nbins
      block_size nblocks hist_buffer0 junk bin
      = BuildHistKernelBuffered true n_columns pgh rid gradient_index offsets
          nbins block_size nblocks bin := by
  unfold BuildHistKernelLocal BuildHistKernelBuffered
  rw [ReduceHist_eval, ReduceHist_eval]
  apply congrArg
  apply List.map_congr_left
  intro block _
  exact BuildHistLocalBlock_eq_bufferedBlock n_columns pgh rid gradient_index
    offsets nbins block_size block (junk block) (hist_buffer0 block) hmono h00
    hFn hcell bin hbin

/- ### Kernel dispatch (hist_util.cc:315-402) -/

/-- The kernel variant selected by BuildHistDispatchKernel. -/
inductive HistKernelVariant
  | bufferedDense | bufferedSparse | localDense | atomicDense | atomicSparse
deriving DecidableEq, Repr

/-- Configuration computed by the tree::HistDispatcher constructor
(hist_dispatcher.h is an external collaborator of the sources, so the
computed fields are taken as abstract inputs here). -/
structure HistDispatcher where
  use_atomics : Bool
  use_local_hist : Bool
  work_group_size : Nat
  block_size : Nat
  nblocks : Nat

/-- Model of BuildHistDispatchKernel (hist_util.cc:315-367): select the
atomic path when the dispatcher asks for atomics or the test hook
`force_atomic_use` is set; otherwise, the local-private-bins kernel for dense
inputs with `use_local_hist`, and the plain buffered kernel in the remaining
cases.  The sparse (non-dense) branches instantiate the kernels at
`uint32_t`, i.e. they read the bin index array at byte width 4 regardless
of the `BinIdxType` template argument `binWidth`.  Returns the selected
variant together with the histogram it computes. -/
def BuildHistDispatchKernel {α : Type} [AddCommGroup α]
    (pgh : Nat → GradientPairT α) (rid : List Nat) (gmat : GHistIndexMatrix)
    (isDense : Bool) (hist_buffer0 : Nat → Nat → GradientPairT α)
    (junk : Nat → Nat → Nat → GradientPairT α) (dispatcher : HistDispatcher)
    (force_atomic_use : Bool) (binWidth : Nat) :
    HistKernelVariant × (Nat → GradientPairT α) :=
  let n_columns := if isDense then gmat.nfeatures else gmat.row_stride
  let use_atomic := dispatcher.use_atomics || force_atomic_use
  if !use_atomic then
    if isDense then
      if dispatcher.use_local_hist then
        (HistKernelVariant.localDense,
         BuildHistKernelLocal gmat.nfeatures pgh rid (gmat.index_data binWidth)
           gmat.offsets gmat.nbins dispatcher.block_size dispatcher.nblocks
           hist_buffer0 junk)
      else
        (HistKernelVariant.bufferedDense,
         BuildHistKernelBuffered true n_columns pgh rid
           (gmat.index_data binWidth) gmat.offsets gmat.nbins
           dispatcher.block_size dispatcher.nblocks)
    else
      (HistKernelVariant.bufferedSparse,
       BuildHistKernelBuffered false n_columns pgh rid (gmat.index_data 4)
         gmat.offsets gmat.nbins dispatcher.block_size dispatcher.nblocks)
  else
    if isDense then
      (HistKernelVariant.atomicDense,
       BuildHistKernelAtomic true n_columns pgh rid (gmat.index_data binWidth)
         gmat.offsets gmat.nbins dispatcher.work_group_size)
    else
      (HistKernelVariant.atomicSparse,
       BuildHistKernelAtomic false n_columns pgh rid (gmat.index_data 4)
         gmat.offsets gmat.nbins dispatcher.work_group_size)

/-- Model of the bin-width dispatch BuildHistKernel (hist_util.cc:369-402):
select the BinIdxType specialization from the stored bin-type byte size
(1, 2 or 4); any other size hits CHECK(false), modelled as `none`. -/
def BuildHistKernel {α : Type} [AddCommGroup α]
    (pgh : Nat → GradientPairT α) (rid : List Nat) (gmat : GHistIndexMatrix)
    (isDense : Bool) (hist_buffer0 : Nat → Nat → GradientPairT α)
    (junk : Nat → Nat → Nat → GradientPairT α) (dispatcher : HistDispatcher)
    (force_atomic_use : Bool) :
    Option (HistKernelVariant × (Nat → GradientPairT α)) :=
  match gmat.binTypeSize with
  | 1 => some (BuildHistDispatchKernel pgh rid gmat isDense hist_buffer0 junk
      dispatcher force_atomic_use 1)
  | 2 => some (BuildHistDispatchKernel pgh rid gmat isDense hist_buffer0 junk
      dispatcher force_atomic_use 2)
  | 4 => some (BuildHistDispatchKernel pgh rid gmat isDense hist_buffer0 junk
      dispatcher force_atomic_use 4)
  | _ => none

/- ### Histogram subtraction (hist_util.cc:62-93, 444-461) -/

/-- The flat scalar view a histogram of pairs is reinterpreted to by
SubtractionHist (`reinterpret_cast<const GradientSumT*>`): gradient and
hessian of pair `i` at flat positions `2*i` and `2*i + 1`. -/
def flattenHist {α : Type} : List (GradientPairT α) → List α
  | [] => []
  | p :: t => p.1 :: p.2 :: flattenHist t

/-- Model of SubtractionHist (hist_util.cc:65-83): over the flat scalar views
of histograms of `size` pairs, `pdst[i] = psrc1[i] - psrc2[i]` for every
`i < 2 * size`. -/
def SubtractionHist {α : Type} [AddCommGroup α] (psrc1 psrc2 : List α)
    (size : Nat) : List α :=
  (List.range (2 * size)).map (fun i => psrc1.getD i 0 - psrc2.getD i 0)

/-- Model of GHistBuilder::SubtractionTrick (hist_util.cc:444-453): check the
CHECKed size preconditions, then compute `self = parent - sibling` via
SubtractionHist; a CHECK failure aborts, modelled as `none`.  Returns the new
flat content of `self`. -/
def SubtractionTrick {α : Type} [AddCommGroup α]
    (self sibling parent : List (GradientPairT α)) : Option (List α) :=
  let size := self.length
  if sibling.length = size ∧ parent.length = size then
    some (SubtractionHist (flattenHist parent) (flattenHist sibling) size)
  else
    none

/- ### FindSplitConditions (common_row_partitioner.h:156-181) -/

/-- The inner loop of CommonRowPartitioner::FindSplitConditions for one node:
starting from `split_cond = -1`, scan `bound` over `[lower, upper)` and
record `bound` whenever `split_pt == vals[bound]`.  Cut values are
floating-point in the source, compared with `==`; they are modelled by an
arbitrary type with decidable equality. -/
def FindSplitCondition {β : Type} [DecidableEq β] [Inhabited β] (vals : List β)
    (lower upper : Nat) (split_pt : β) : Int :=
  (List.range' lower (upper - lower)).foldl
    (fun split_cond bound =>
      if split_pt = vals.getD bound default then (bound : Int) else split_cond)
    (-1)

/-- Model of CommonRowPartitioner::FindSplitConditions
(common_row_partitioner.h:156-181).  Each node contributes its split feature
`tree.SplitIndex nidx` and split value `tree.SplitCond nidx`, modelled as a
pair; `ptrs` is `gmat.cut.Ptrs()` and `vals` is `gmat.cut.Values()`. -/
def FindSplitConditions {β : Type} [DecidableEq β] [Inhabited β]
    (nodes : List (Nat × β)) (ptrs : List Nat) (vals : List β) : List Int :=
  nodes.map (fun nd =>
    FindSplitCondition vals (ptrs.getD nd.1 0) (ptrs.getD (nd.1 + 1) 0) nd.2)

/- ### Column-split helper (common_row_partitioner.h:31-124) -/

/-- Bitwise OR of two bit vectors stored as 8-bit words
(`BitVector operator|=`). -/
def bvOr (a b : List Nat) : List Nat := List.zipWith Nat.lor a b

/-- Bitwise AND of two bit vectors stored as 8-bit words. -/
def bvAnd (a b : List Nat) : List Nat := List.zipWith Nat.land a b

/-- Modelled from the spec: bit access of the RBitField8 bit vectors
(bitfield.h is an external collaborator of the sources); storage is 8-bit
words, little-endian within the word, so bit `r` lives in word `r / 8` at
position `r % 8`. -/
def bvTest (v : List Nat) (r : Nat) : Bool :=
  Nat.testBit (v.getD (r / 8) 0) (r % 8)

theorem getD_zipWith (f : Nat → Nat → Nat) (a b : List Nat) (i : Nat)
    (ha : i < a.length) (hb : i < b.length) :
    (List.zipWith f a b).getD i 0 = f (a.getD i 0) (b.getD i 0) := by
  simp [List.getD_eq_getElem?_getD, List.getElem?_zipWith,
    List.getElem?_eq_getElem, ha, hb]

theorem bvTest_bvOr (a b : List Nat) (r : Nat) (ha : r / 8 < a.length)
    (hb : r / 8 < b.length) :
    bvTest (bvOr a b) r = (bvTest a r || bvTest b r) := by
  unfold bvTest bvOr
  rw [getD_zipWith _ _ _ _ ha hb]
  exact Nat.testBit_lor _ _ _

theorem bvTest_bvAnd (a b : List Nat) (r : Nat) (ha : r / 8 < a.length)
    (hb : r / 8 < b.length) :
    bvTest (bvAnd a b) r = (bvTest a r && bvTest b r) := by
  unfold bvTest bvAnd
  rw [getD_zipWith _ _ _ _ ha hb]
  exact Nat.testBit_land _ _ _

theorem foldl_bvOr_spec (rest : List (List Nat)) (b : List Nat) (n : Nat)
    (hb : b.length = n) (hrest : ∀ x ∈ rest, x.length = n) (r : Nat)
    (hr : r / 8 < n) :
    (rest.foldl bvOr b).length = n ∧
    (bvTest (rest.foldl bvOr b) r = true ↔
      bvTest b r = true ∨ ∃ x ∈ rest, bvTest x r = true) := by
  induction rest generalizing b with
  | nil => simp [hb]
  | cons x rest ih =>
    have hx : x.length = n := hrest x (List.mem_cons_self x rest)
    have hlen : (bvOr b x).length = n := by
      unfold bvOr
      rw [List.length_zipWith, hb, hx]
      exact Nat.min_self n
    have hrest2 : ∀ y ∈ rest, y.length = n := fun y hy =>
      hrest y (List.mem_cons_of_mem x hy)
    obtain ⟨hl, hiff⟩ := ih (bvOr b x) hlen hrest2
    refine ⟨hl, ?_⟩
    rw [List.foldl_cons] at *
    rw [hiff]
    rw [bvTest_bvOr b x r (by omega) (by omega)]
    simp only [Bool.or_eq_true, List.mem_cons]
    constructor
    · rintro ((hb1 | hx1) | ⟨y, hy, hty⟩)
      · exact Or.inl hb1
      · exact Or.inr ⟨x, Or.inl rfl, hx1⟩
      · exact Or.inr ⟨y, Or.inr hy, hty⟩
    · rintro (hb1 | ⟨y, (rfl | hy), hty⟩)
      · exact Or.inl (Or.inl hb1)
      · exact Or.inl (Or.inr hty)
      · exact Or.inr ⟨y, hy, hty⟩

theorem foldl_bvAnd_spec (rest : List (List Nat)) (b : List Nat) (n : Nat)
    (hb : b.length = n) (hrest : ∀ x ∈ rest, x.length = n) (r : Nat)
    (hr : r / 8 < n) :
    (rest.foldl bvAnd b).length = n ∧
    (bvTest (rest.foldl bvAnd b) r = true ↔
      bvTest b r = true ∧ ∀ x ∈ rest, bvTest x r = true) := by
  induction rest generalizing b with
  | nil => simp [hb]
  | cons x rest ih =>
    have hx : x.length = n := hrest x (List.mem_cons_self x rest)
    have hlen : (bvAnd b x).length = n := by
      unfold bvAnd
      rw [List.length_zipWith, hb, hx]
      exact Nat.min_self n
    have hrest2 : ∀ y ∈ rest, y.length = n := fun y hy =>
      hrest y (List.mem_cons_of_mem x hy)
    obtain ⟨hl, hiff⟩ := ih (bvAnd b x) hlen hrest2
    refine ⟨hl, ?_⟩
    rw [List.foldl_cons] at *
    rw [hiff]
    rw [bvTest_bvAnd b x r (by omega) (by omega)]
    simp only [Bool.and_eq_true, List.mem_cons]
    constructor
    · rintro ⟨⟨hb1, hx1⟩, hall⟩
      exact ⟨hb1, fun y hy => hy.elim (fun h => h ▸ hx1) (hall y)⟩
    · rintro ⟨hb1, hall⟩
      exact ⟨⟨hb1, hall x (Or.inl rfl)⟩, fun y hy => hall y (Or.inr hy)⟩

/-- Model of the thread-local reduction loop of ColumnSplitHelper::Partition
(common_row_partitioner.h:81-87): start from replica 0 and OR in replicas
`1 .. n_threads - 1`. -/
def ReduceThreadLocal (replicas : Nat → List Nat) (n_threads : Nat) : List Nat :=
  (List.range' 1 (n_threads - 1)).foldl
    (fun acc tidx => bvOr acc (replicas tidx)) (replicas 0)

theorem ReduceThreadLocal_spec (replicas : Nat → List Nat) (n_threads n : Nat)
    (ht : 0 < n_threads) (hlen : ∀ t, t < n_threads → (replicas t).length = n)
    (r : Nat) (hr : r / 8 < n) :
    (ReduceThreadLocal replicas n_threads).length = n ∧
    (bvTest (ReduceThreadLocal replicas n_threads) r = true ↔
      ∃ t, t < n_threads ∧ bvTest (replicas t) r = true) := by
  unfold ReduceThreadLocal
  rw [show (List.range' 1 (n_threads - 1)).foldl
      (fun acc tidx => bvOr acc (replicas tidx)) (replicas 0)
    = ((List.range' 1 (n_threads - 1)).map replicas).foldl bvOr (replicas 0) by
    rw [List.foldl_map]]
  have hrest : ∀ x ∈ (List.range' 1 (n_threads - 1)).map replicas, x.length = n := by
    intro x hx
    simp only [List.mem_map, List.mem_range'_1] at hx
    obtain ⟨t, ⟨ht1, ht2⟩, rfl⟩ := hx
    exact hlen t (by omega)
  obtain ⟨hl, hiff⟩ := foldl_bvOr_spec ((List.range' 1 (n_threads - 1)).map replicas)
    (replicas 0) n (hlen 0 ht) hrest r hr
  refine ⟨hl, ?_⟩
  rw [hiff]
  constructor
  · rintro (h0 | ⟨x, hx, htx⟩)
    · exact ⟨0, ht, h0⟩
    · simp only [List.mem_map, List.mem_range'_1] at hx
      obtain ⟨t, ⟨ht1, ht2⟩, rfl⟩ := hx
      exact ⟨t, by omega, htx⟩
  · rintro ⟨t, htn, htt⟩
    by_cases h0 : t = 0
    · subst h0
      exact Or.inl htt
    · refine Or.inr ⟨replicas t, ?_, htt⟩
      simp only [List.mem_map, List.mem_range'_1]
      exact ⟨t, ⟨by omega, by omega⟩, rfl⟩

/-- Modelled from the spec: the collective all-reduce with BitwiseOR
(allreduce.h is an external collaborator of the sources); the returned buffer
is the bitwise OR aggregate of all workers' input buffers. -/
def AllreduceBitwiseOR : List (List Nat) → List Nat
  | [] => []
  | b :: rest => rest.foldl bvOr b

/-- Modelled from the spec: the collective all-reduce with BitwiseAND; the
returned buffer is the bitwise AND aggregate of all workers' inputs. -/
def AllreduceBitwiseAND : List (List Nat) → List Nat
  | [] => []
  | b :: rest => rest.foldl bvAnd b

/-- Result of one worker's ColumnSplitHelper::Partition: the aggregated
decision and missing bit vectors, and the second partitioning pass computed
from them. -/
structure ColumnSplitPartitionResult (γ : Type) where
  decision_storage : List Nat
  missing_storage : List Nat
  second_pass : γ

/-- Model of ColumnSplitHelper::Partition (common_row_partitioner.h:46-110)
across `n_workers` workers.  The first pass (MaskRows, in partition_builder.h,
an external collaborator of the sources) is abstracted: `mask_decision wk t`
and `mask_missing wk t` are the decision/missing bit-vector replicas written
by thread `t` of worker `wk`.  Each worker ORs its thread replicas into its
worker-local vectors; the workers then all-reduce the decision vectors with
bitwise OR and the missing vectors with bitwise AND, and the second
partitioning pass (PartitionByMask, abstracted as `partitionByMask`) consumes
the aggregated bits. -/
def ColumnSplitPartition {γ : Type} (n_workers n_threads : Nat)
    (mask_decision mask_missing : Nat → Nat → List Nat)
    (partitionByMask : List Nat → List Nat → γ) : ColumnSplitPartitionResult γ :=
  let decision_storage := AllreduceBitwiseOR ((List.range n_workers).map
    (fun wk => ReduceThreadLocal (mask_decision wk) n_threads))
  let missing_storage := AllreduceBitwiseAND ((List.range n_workers).map
    (fun wk => ReduceThreadLocal (mask_missing wk) n_threads))
  ⟨decision_storage, missing_storage,
   partitionByMask decision_storage missing_storage⟩

theorem AllreduceBitwiseOR_spec (bufs : List (List Nat)) (n : Nat)
    (hne : bufs ≠ []) (hlen : ∀ x ∈ bufs, x.length = n) (r : Nat)
    (hr : r / 8 < n) :
    (AllreduceBitwiseOR bufs).length = n ∧
    (bvTest (AllreduceBitwiseOR bufs) r = true ↔
      ∃ x ∈ bufs, bvTest x r = true) := by
  match bufs with
  | [] => exact absurd rfl hne
  | b :: rest =>
    have hb : b.length = n := hlen b (List.mem_cons_self b rest)
    have hrest : ∀ x ∈ rest, x.length = n := fun x hx =>
      hlen x (List.mem_cons_of_mem b hx)
    obtain ⟨hl, hiff⟩ := foldl_bvOr_spec rest b n hb hrest r hr
    refine ⟨hl, ?_⟩
    unfold AllreduceBitwiseOR
    rw [hiff]
    simp only [List.mem_cons]
    constructor
    · rintro (h0 | ⟨x, hx, htx⟩)
      · exact ⟨b, Or.inl rfl, h0⟩
      · exact ⟨x, Or.inr hx, htx⟩
    · rintro ⟨x, (rfl | hx), htx⟩
      · exact Or.inl htx
      · exact Or.inr ⟨x, hx, htx⟩

theorem AllreduceBitwiseAND_spec (bufs : List (List Nat)) (n : Nat)
    (hne : bufs ≠ []) (hlen : ∀ x ∈ bufs, x.length = n) (r : Nat)
    (hr : r / 8 < n) :
    (AllreduceBitwiseAND bufs).length = n ∧
    (bvTest (AllreduceBitwiseAND bufs) r = true ↔
      ∀ x ∈ bufs, bvTest x r = true) := by
  match bufs with
  | [] => exact absurd rfl hne
  | b :: rest =>
    have hb : b.length = n := hlen b (List.mem_cons_self b rest)
    have hrest : ∀ x ∈ rest, x.length = n := fun x hx =>
      hlen x (List.mem_cons_of_mem b hx)
    obtain ⟨hl, hiff⟩ := foldl_bvAnd_spec rest b n hb hrest r hr
    refine ⟨hl, ?_⟩
    unfold AllreduceBitwiseAND
    rw [hiff]
    simp only [List.mem_cons]
    constructor
    · rintro ⟨h0, hall⟩ x hx
      exact hx.elim (fun h => h ▸ h0) (hall x)
    · intro hall
      exact ⟨hall b (Or.inl rfl), fun x hx => hall x (Or.inr hx)⟩

/- ### UpdatePosition phase structure (common_row_partitioner.h:238-301) -/

/-- kPartitionBlockSize (common_row_partitioner.h:29). -/
def kPartitionBlockSize : Nat := 2048

/-- The row-set collection's observable state: the shared row-index buffer
(`row_set_collection_.Data()`) and the per-node ranges (begin and end offsets
into the buffer). -/
structure RowSetState where
  row_indices : List Nat
  elems : Nat → Nat × Nat

/-- The successive phases of CommonRowPartitioner::UpdatePosition
(common_row_partitioner.h:238-301), in program order. -/
inductive UPPhase
  | findConditions
  | initBuilder
  | partitionBlocks
  | calcOffsets
  | merge
  | addSplit
deriving DecidableEq, Repr

/-- Program order of the UpdatePosition phases. -/
def UPPhase.idx : UPPhase → Nat
  | .findConditions => 0
  | .initBuilder => 1
  | .partitionBlocks => 2
  | .calcOffsets => 3
  | .merge => 4
  | .addSplit => 5

/-- Modelled from the spec: phase 1 of the partition builder
(partition_builder.h is an external collaborator of the sources; spec section
4.3).  The node's row range is chopped into blocks of `block_size` rows; each
block's rows are split into a left-destined prefix list and a right-destined
list, written to per-task scratch only. -/
def maskBlocks (decideLeft : Nat → Bool) (rows : List Nat) (block_size : Nat) :
    List (List Nat × List Nat) :=
  (List.range (rows.length / block_size +
      (if rows.length % block_size > 0 then 1 else 0))).map
    (fun b =>
      let blk := (rows.drop (b * block_size)).take block_size
      (blk.filter decideLeft, blk.filter (fun r => ! decideLeft r)))

/-- Modelled from the spec: phase 3 of the partition builder (spec section
4.3): copy every task's left sub-block, in task order, then every task's
right sub-block into the node's range of the shared buffer. -/
def mergeTasks (tasks : List (List Nat × List Nat)) : List Nat :=
  (tasks.map Prod.fst).flatten ++ (tasks.map Prod.snd).flatten

/-- Overwrite `buffer[start .. start + vals.length)` with `vals`. -/
def writeRange (buffer : List Nat) (start : Nat) (vals : List Nat) : List Nat :=
  buffer.take start ++ vals ++ buffer.drop (start + vals.length)

/-- Model of the state of the row-set collection after each phase of
CommonRowPartitioner::UpdatePosition (common_row_partitioner.h:238-301) for
one split node `nid` with children `left_child` and `right_child`.
`decideLeft` abstracts the per-row split decision of the partition builder
(partition_builder.h is an external collaborator of the sources; the phase
effects follow spec section 4.3):
phases 1-3 (find split conditions, builder initialization, per-block
partitioning into scratch, offset computation) do not touch the row-set
collection; the merge phase (MergeToArray) writes the partitioned rows back
into the node's range of the shared buffer; AddSplitsToRowSet then attaches
the child ranges, splitting the parent's range at `n_left` (spec section
4.2, row_set.h being an external collaborator of the sources). -/
def UpdatePositionState (s0 : RowSetState) (nid left_child right_child : Nat)
    (decideLeft : Nat → Bool) (ph : UPPhase) : RowSetState :=
  let be := s0.elems nid
  let rows := (s0.row_indices.drop be.1).take (be.2 - be.1)
  let tasks := maskBlocks decideLeft rows kPartitionBlockSize
  let merged := mergeTasks tasks
  let n_left := ((tasks.map Prod.fst).map List.length).sum
  let n_right := ((tasks.map Prod.snd).map List.length).sum
  match ph with
  | .findConditions => s0
  | .initBuilder => s0
  | .partitionBlocks => s0
  | .calcOffsets => s0
  | .merge => { s0 with row_indices := writeRange s0.row_indices be.1 merged }
  | .addSplit =>
      { row_indices := writeRange s0.row_indices be.1 merged,
        elems := fun n =>
          if n = left_child then (be.1, be.1 + n_left)
          else if n = right_child then
            (be.1 + n_left, be.1 + n_left + n_right)
          else s0.elems n }

/- ### Histogram-store write accesses of the device kernels -/

/-- The indices into the block's private slice (of `nbins` pairs) written by
the buffered BuildHistKernel (hist_util.cc:163-171), in loop order: an
accumulation happens only under the `idx_bin < nbins` guard. -/
def BuildHistBufferedWriteAccesses (isDense : Bool) (n_columns : Nat)
    (rid : List Nat) (gradient_index : Nat → Nat) (offsets : Nat → Nat)
    (nbins block_size nblocks : Nat) : List Nat :=
  (List.range nblocks).flatMap (fun block =>
    (List.range block_size).flatMap (fun idx =>
      if block * block_size + idx < rid.length then
        (List.range n_columns).flatMap (fun j =>
          let idx_bin := cellBin isDense n_columns gradient_index offsets
            (rid.getD (block * block_size + idx) 0) j
          if idx_bin < nbins then [idx_bin] else [])
      else []))

/-- The indices into the output histogram (of `nbins` pairs) written by the
atomic BuildHistKernel (hist_util.cc:296-309): one guarded atomic
accumulation per (row, lane) pair with `j < n_columns`. -/
def BuildHistAtomicWriteAccesses (isDense : Bool) (n_columns : Nat)
    (rid : List Nat) (gradient_index : Nat → Nat) (offsets : Nat → Nat)
    (nbins work_group_size : Nat) : List Nat :=
  let n_work_groups := n_columns / work_group_size +
    (if n_columns % work_group_size > 0 then 1 else 0)
  (List.range rid.length).flatMap (fun i =>
    (List.range (n_work_groups * work_group_size)).flatMap (fun j =>
      if j < n_columns then
        let idx_bin := cellBin isDense n_columns gradient_index offsets
          (rid.getD i 0) j
        if idx_bin < nbins then [idx_bin] else []
      else []))

/-- The indices into the per-lane `hist_fast` array (of `kMaxNumBins` pairs)
accessed by BuildHistKernelLocal (hist_util.cc:219-248): the zero-assignment
loop and the write-back read loop touch `[0, n_bins_feature)`, and each block
row accumulates at its stored feature-local bin index, unguarded. -/
def BuildHistLocalFastAccesses (n_columns : Nat) (rid : List Nat)
    (gradient_index : Nat → Nat) (offsets : Nat → Nat)
    (block_size nblocks : Nat) : List Nat :=
  (List.range nblocks).flatMap (fun block =>
    (List.range n_columns).flatMap (fun fid =>
      let n_bins_feature := offsets (fid + 1) - offsets fid
      List.range n_bins_feature ++
      (List.range block_size).flatMap (fun idx =>
        if block * block_size + idx < rid.length then
          [gradient_index
            (n_columns * rid.getD (block * block_size + idx) 0 + fid)]
        else []) ++
      List.range n_bins_feature))

/-- The indices into the block's private slice (of `nbins` pairs) written by
the write-back loop of BuildHistKernelLocal (hist_util.cc:246-248):
`bin + offsets[fid]` for `bin < n_bins_feature`. -/
def BuildHistLocalSliceAccesses (n_columns : Nat) (offsets : Nat → Nat)
    (nblocks : Nat) : List Nat :=
  (List.range nblocks).flatMap (fun _ =>
    (List.range n_columns).flatMap (fun fid =>
      (List.range (offsets (fid + 1) - offsets fid)).map
        (fun bin => bin + offsets fid)))

/- ### Histogram totals -/

/-- Sum of a histogram over all bins below `nbins`. -/
def histTotal {α : Type} [AddCommGroup α] (hist : Nat → GradientPairT α)
    (nbins : Nat) : GradientPairT α :=
  ((List.range nbins).map hist).sum

/-- Sum of the gradient pairs over the rows of a row set. -/
def rowSetTotal {α : Type} [AddCommGroup α] (pgh : Nat → GradientPairT α)
    (rid : List Nat) : GradientPairT α :=
  ((List.range rid.length).map (fun i => pgh (rid.getD i 0))).sum

theorem sum_map_nsmul {γ β : Type} [AddCommMonoid γ] (L : List β) (n : Nat)
    (f : β → γ) :
    (L.map (fun x => n • f x)).sum = n • (L.map f).sum := by
  induction L with
  | nil => simp
  | cons a L ih =>
    simp only [List.map_cons, List.sum_cons, ih]
    rw [nsmul_add]

/-- Summed over all bins, the reference histogram counts every row once per
column whose cell bin is valid; with all cells valid this is `n_columns`
copies of the row-set total. -/
theorem histSpec_total {α : Type} [AddCommGroup α] (isDense : Bool)
    (n_columns : Nat) (pgh : Nat → GradientPairT α) (rid : List Nat)
    (gradient_index : Nat → Nat) (offsets : Nat → Nat) (nbins : Nat)
    (hvalid : ∀ i, i < rid.length → ∀ j, j < n_columns →
      cellBin isDense n_columns gradient_index offsets (rid.getD i 0) j < nbins) :
    ((List.range nbins).map (fun bin =>
      histSpec isDense n_columns pgh rid gradient_index offsets nbins bin)).sum
      = n_columns • rowSetTotal pgh rid := by
  unfold histSpec rowSetTotal
  rw [range_sum_swap]
  have hinner : ∀ i ∈ List.range rid.length,
      ((List.range nbins).map (fun bin =>
        ((List.range n_columns).map (fun j =>
          cellTerm isDense n_columns gradient_index offsets nbins
            (pgh (rid.getD i 0)) (rid.getD i 0) j bin)).sum)).sum
      = n_columns • pgh (rid.getD i 0) := by
    intro i hi
    rw [range_sum_swap]
    have hj : ∀ j ∈ List.range n_columns,
        ((List.range nbins).map (fun bin =>
          cellTerm isDense n_columns gradient_index offsets nbins
            (pgh (rid.getD i 0)) (rid.getD i 0) j bin)).sum
        = pgh (rid.getD i 0) := by
      intro j hjm
      have hc := hvalid i (List.mem_range.mp hi) j (List.mem_range.mp hjm)
      unfold cellTerm
      rw [← ite_sum_push]
      rw [if_pos hc]
      rw [sum_range_ite_eq]
      rw [if_pos hc]
    rw [List.map_congr_left hj]
    rw [sum_range_const]
  rw [List.map_congr_left hinner]
  rw [sum_map_nsmul]

/- ### Characterization of FindSplitCondition -/

theorem FindSplitCondition_fold_spec {β : Type} [DecidableEq β] [Inhabited β]
    (vals : List β) (pt : β) (s : Nat) :
    ∀ n : Nat, ∀ acc : Int,
    (((List.range' s n).foldl
        (fun split_cond bound =>
          if pt = vals.getD bound default then (bound : Int) else split_cond)
        acc = acc)
      ∧ (∀ b, s ≤ b → b < s + n → vals.getD b default ≠ pt))
    ∨ (∃ b, s ≤ b ∧ b < s + n ∧ vals.getD b default = pt
        ∧ (List.range' s n).foldl
            (fun split_cond bound =>
              if pt = vals.getD bound default then (bound : Int) else split_cond)
            acc = (b : Int)
        ∧ ∀ b2, s ≤ b2 → b2 < s + n → vals.getD b2 default = pt → b2 ≤ b) := by
  intro n
  induction n with
  | zero =>
    intro acc
    left
    exact ⟨rfl, fun b hb1 hb2 => absurd (by omega) (by omega : ¬ b < s)⟩
  | succ n ih =>
    intro acc
    have hconcat : List.range' s (n + 1) = List.range' s n ++ [s + n] := by
      rw [List.range'_concat]
      simp
    rw [hconcat, List.foldl_append]
    simp only [List.foldl_cons, List.foldl_nil]
    by_cases hmatch : pt = vals.getD (s + n) default
    · right
      refine ⟨s + n, by omega, by omega, hmatch.symm, ?_, fun b2 _ hb2 _ => by omega⟩
      rw [if_pos hmatch]
    · rw [if_neg hmatch]
      rcases ih acc with ⟨heq, hnone⟩ | ⟨b, hb1, hb2, hbv, heq, hmax⟩
      · left
        refine ⟨heq, fun b hbl hbu => ?_⟩
        by_cases hbn : b = s + n
        · subst hbn
          exact fun h => hmatch h.symm
        · exact hnone b hbl (by omega)
      · right
        refine ⟨b, hb1, by omega, hbv, heq, fun b2 hbl hbu hbv2 => ?_⟩
        by_cases hbn : b2 = s + n
        · subst hbn
          exact absurd hbv2 (fun h => hmatch h.symm)
        · exact hmax b2 hbl (by omega) hbv2

/- ### Flat-view lemmas for histogram subtraction -/

theorem getD_map_range {γ : Type} (n : Nat) (f : Nat → γ) (i : Nat)
    (hi : i < n) (d : γ) :
    ((List.range n).map f).getD i d = f i := by
  rw [List.getD_eq_getElem?_getD, List.getElem?_map, List.getElem?_range hi]
  rfl

theorem flattenHist_getD_fst {α : Type} [AddCommGroup α]
    (l : List (GradientPairT α)) (i : Nat) (hi : i < l.length) :
    (flattenHist l).getD (2 * i) 0 = (l.getD i 0).1 := by
  induction l generalizing i with
  | nil => simp at hi
  | cons p t ih =>
    match i with
    | 0 => rfl
    | i + 1 =>
      have h2 : 2 * (i + 1) = 2 * i + 1 + 1 := by ring
      rw [h2]
      show (flattenHist t).getD (2 * i) 0 = _
      rw [ih i (by simpa using Nat.lt_of_succ_lt_succ hi)]
      rfl

theorem flattenHist_getD_snd {α : Type} [AddCommGroup α]
    (l : List (GradientPairT α)) (i : Nat) (hi : i < l.length) :
    (flattenHist l).getD (2 * i + 1) 0 = (l.getD i 0).2 := by
  induction l generalizing i with
  | nil => simp at hi
  | cons p t ih =>
    match i with
    | 0 => rfl
    | i + 1 =>
      have h2 : 2 * (i + 1) + 1 = 2 * i + 1 + 1 + 1 := by ring
      rw [h2]
      show (flattenHist t).getD (2 * i + 1) 0 = _
      rw [ih i (by simpa using Nat.lt_of_succ_lt_succ hi)]
      rfl

theorem SubtractionHist_getD {α : Type} [AddCommGroup α] (a b : List α)
    (size i : Nat) (hi : i < 2 * size) :
    (SubtractionHist a b size).getD i 0 = a.getD i 0 - b.getD i 0 := by
  unfold SubtractionHist
  rw [getD_map_range _ _ i hi]

/- ### Claim theorems -/

/-- C3: for every node `i` of the input list with split feature `f` and split
value `split_pt`, FindSplitConditions sets `split_conditions[i]` to the
maximum index `b` in `[ptrs[f], ptrs[f+1])` with `cut_values[b] == split_pt`,
and to `-1` when no index in that range satisfies the equality (in particular
when the range is empty). -/
theorem FindSplitConditions_spec {β : Type} [DecidableEq β] [Inhabited β]
    (nodes : List (Nat × β)) (ptrs : List Nat) (vals : List β) (i : Nat)
    (hi : i < nodes.length) :
    ((FindSplitConditions nodes ptrs vals).getD i 0 = -1
      ∧ ∀ b, ptrs.getD (nodes.getD i (0, default)).1 0 ≤ b →
          b < ptrs.getD ((nodes.getD i (0, default)).1 + 1) 0 →
          vals.getD b default ≠ (nodes.getD i (0, default)).2)
    ∨ (∃ b, ptrs.getD (nodes.getD i (0, default)).1 0 ≤ b
        ∧ b < ptrs.getD ((nodes.getD i (0, default)).1 + 1) 0
        ∧ vals.getD b default = (nodes.getD i (0, default)).2
        ∧ (FindSplitConditions nodes ptrs vals).getD i 0 = (b : Int)
        ∧ ∀ b2, ptrs.getD (nodes.getD i (0, default)).1 0 ≤ b2 →
            b2 < ptrs.getD ((nodes.getD i (0, default)).1 + 1) 0 →
            vals.getD b2 default = (nodes.getD i (0, default)).2 → b2 ≤ b) := by
  have hget : (FindSplitConditions nodes ptrs vals).getD i 0
      = FindSplitCondition vals (ptrs.getD (nodes.getD i (0, default)).1 0)
          (ptrs.getD ((nodes.getD i (0, default)).1 + 1) 0)
          (nodes.getD i (0, default)).2 := by
    have hnd : nodes.getD i (0, default) = nodes[i] := by
      rw [List.getD_eq_getElem?_getD, List.getElem?_eq_getElem hi]
      rfl
    unfold FindSplitConditions
    rw [List.getD_eq_getElem?_getD, List.getElem?_map,
      List.getElem?_eq_getElem hi, hnd]
    rfl
  rcases FindSplitCondition_fold_spec vals (nodes.getD i (0, default)).2
      (ptrs.getD (nodes.getD i (0, default)).1 0)
      (ptrs.getD ((nodes.getD i (0, default)).1 + 1) 0
        - ptrs.getD (nodes.getD i (0, default)).1 0) (-1)
    with ⟨heq, hnone⟩ | ⟨b, hb1, hb2, hb3, hb4, hb5⟩
  · left
    refine ⟨by rw [hget]; exact heq, fun b hbl hbu => hnone b hbl (by omega)⟩
  · right
    exact ⟨b, hb1, by omega, hb3, by rw [hget]; exact hb4,
      fun b2 hbl hbu hv => hb5 b2 hbl (by omega) hv⟩

/-- Witness for C3 at a concrete input: one node with split feature 0 and
split value 5, cut range `[0, 3)` over values `[4, 5, 5]`; the greatest
matching cut index is 2. -/
theorem FindSplitConditions_spec_witness :
    0 < [((0 : Nat), (5 : ℤ))].length ∧
    (((FindSplitConditions [((0 : Nat), (5 : ℤ))] [0, 3] [4, 5, 5]).getD 0 0 = -1
      ∧ ∀ b, [0, 3].getD ([((0 : Nat), (5 : ℤ))].getD 0 (0, default)).1 0 ≤ b →
          b < [0, 3].getD (([((0 : Nat), (5 : ℤ))].getD 0 (0, default)).1 + 1) 0 →
          [4, 5, 5].getD b default ≠ ([((0 : Nat), (5 : ℤ))].getD 0 (0, default)).2)
    ∨ (∃ b, [0, 3].getD ([((0 : Nat), (5 : ℤ))].getD 0 (0, default)).1 0 ≤ b
        ∧ b < [0, 3].getD (([((0 : Nat), (5 : ℤ))].getD 0 (0, default)).1 + 1) 0
        ∧ [4, 5, 5].getD b default = ([((0 : Nat), (5 : ℤ))].getD 0 (0, default)).2
        ∧ (FindSplitConditions [((0 : Nat), (5 : ℤ))] [0, 3] [4, 5, 5]).getD 0 0 = (b : Int)
        ∧ ∀ b2, [0, 3].getD ([((0 : Nat), (5 : ℤ))].getD 0 (0, default)).1 0 ≤ b2 →
            b2 < [0, 3].getD (([((0 : Nat), (5 : ℤ))].getD 0 (0, default)).1 + 1) 0 →
            [4, 5, 5].getD b2 default = ([((0 : Nat), (5 : ℤ))].getD 0 (0, default)).2 → b2 ≤ b)) :=
  ⟨by decide, FindSplitConditions_spec [((0 : Nat), (5 : ℤ))] [0, 3] [4, 5, 5] 0 (by decide)⟩

/-- C5: SubtractionHist writes `dst[i] = a[i] - b[i]` pair-wise in both
components over the flat scalar views, and SubtractionTrick, under its CHECKed
size preconditions, computes `self = parent - sibling` pair-wise. -/
theorem SubtractionHist_SubtractionTrick_spec {α : Type} [AddCommGroup α]
    (a b self sibling parent : List (GradientPairT α)) (B : Nat)
    (ha : a.length = B) (hb : b.length = B)
    (hsib : sibling.length = self.length) (hpar : parent.length = self.length) :
    (∀ i, i < B →
      (SubtractionHist (flattenHist a) (flattenHist b) B).getD (2 * i) 0
        = (a.getD i 0).1 - (b.getD i 0).1
      ∧ (SubtractionHist (flattenHist a) (flattenHist b) B).getD (2 * i + 1) 0
        = (a.getD i 0).2 - (b.getD i 0).2)
    ∧ ∃ dst, SubtractionTrick self sibling parent = some dst
        ∧ ∀ i, i < self.length →
            dst.getD (2 * i) 0 = (parent.getD i 0).1 - (sibling.getD i 0).1
            ∧ dst.getD (2 * i + 1) 0
              = (parent.getD i 0).2 - (sibling.getD i 0).2 := by
  constructor
  · intro i hiB
    constructor
    · rw [SubtractionHist_getD _ _ _ _ (by omega)]
      rw [flattenHist_getD_fst a i (by omega), flattenHist_getD_fst b i (by omega)]
    · rw [SubtractionHist_getD _ _ _ _ (by omega)]
      rw [flattenHist_getD_snd a i (by omega), flattenHist_getD_snd b i (by omega)]
  · refine ⟨SubtractionHist (flattenHist parent) (flattenHist sibling)
      self.length, ?_, ?_⟩
    · unfold SubtractionTrick
      rw [if_pos ⟨hsib, hpar⟩]
    · intro i hiL
      constructor
      · rw [SubtractionHist_getD _ _ _ _ (by omega)]
        rw [flattenHist_getD_fst parent i (by omega),
          flattenHist_getD_fst sibling i (by omega)]
      · rw [SubtractionHist_getD _ _ _ _ (by omega)]
        rw [flattenHist_getD_snd parent i (by omega),
          flattenHist_getD_snd sibling i (by omega)]

/-- Witness for C5 at concrete two-bin histograms over ℤ. -/
theorem SubtractionHist_SubtractionTrick_spec_witness :
    ([((5 : ℤ), (7 : ℤ)), (3, 2)].length = 2)
    ∧ ([((1 : ℤ), (2 : ℤ)), (1, 1)].length = 2)
    ∧ ([((1 : ℤ), (2 : ℤ)), (1, 1)].length
        = [((0 : ℤ), (0 : ℤ)), (0, 0)].length)
    ∧ ([((5 : ℤ), (7 : ℤ)), (3, 2)].length
        = [((0 : ℤ), (0 : ℤ)), (0, 0)].length)
    ∧ ((∀ i, i < 2 →
      (SubtractionHist (flattenHist [((5 : ℤ), (7 : ℤ)), (3, 2)])
        (flattenHist [((1 : ℤ), (2 : ℤ)), (1, 1)]) 2).getD (2 * i) 0
        = ([((5 : ℤ), (7 : ℤ)), (3, 2)].getD i 0).1
          - ([((1 : ℤ), (2 : ℤ)), (1, 1)].getD i 0).1
      ∧ (SubtractionHist (flattenHist [((5 : ℤ), (7 : ℤ)), (3, 2)])
        (flattenHist [((1 : ℤ), (2 : ℤ)), (1, 1)]) 2).getD (2 * i + 1) 0
        = ([((5 : ℤ), (7 : ℤ)), (3, 2)].getD i 0).2
          - ([((1 : ℤ), (2 : ℤ)), (1, 1)].getD i 0).2)
    ∧ ∃ dst, SubtractionTrick [((0 : ℤ), (0 : ℤ)), (0, 0)]
        [((1 : ℤ), (2 : ℤ)), (1, 1)] [((5 : ℤ), (7 : ℤ)), (3, 2)] = some dst
        ∧ ∀ i, i < [((0 : ℤ), (0 : ℤ)), (0, 0)].length →
            dst.getD (2 * i) 0
              = ([((5 : ℤ), (7 : ℤ)), (3, 2)].getD i 0).1
                - ([((1 : ℤ), (2 : ℤ)), (1, 1)].getD i 0).1
            ∧ dst.getD (2 * i + 1) 0
              = ([((5 : ℤ), (7 : ℤ)), (3, 2)].getD i 0).2
                - ([((1 : ℤ), (2 : ℤ)), (1, 1)].getD i 0).2) :=
  ⟨by decide, by decide, by decide, by decide,
   SubtractionHist_SubtractionTrick_spec [((5 : ℤ), (7 : ℤ)), (3, 2)]
     [((1 : ℤ), (2 : ℤ)), (1, 1)] [((0 : ℤ), (0 : ℤ)), (0, 0)]
     [((1 : ℤ), (2 : ℤ)), (1, 1)] [((5 : ℤ), (7 : ℤ)), (3, 2)] 2
     (by decide) (by decide) (by decide) (by decide)⟩

/-- C6: BuildHistDispatchKernel invokes the atomic variant exactly when the
dispatcher reports `use_atomics` or the `force_atomic_use` test hook is set;
otherwise, on dense inputs the local-private-bins variant is invoked exactly
when the dispatcher reports `use_local_hist`, and the plain buffered variant
is invoked in all remaining cases. -/
theorem BuildHistDispatchKernel_selection {α : Type} [AddCommGroup α]
    (pgh : Nat → GradientPairT α) (rid : List Nat) (gmat : GHistIndexMatrix)
    (isDense : Bool) (hist_buffer0 : Nat → Nat → GradientPairT α)
    (junk : Nat → Nat → Nat → GradientPairT α) (dispatcher : HistDispatcher)
    (force_atomic_use : Bool) (binWidth : Nat) :
    (((BuildHistDispatchKernel pgh rid gmat isDense hist_buffer0 junk
          dispatcher force_atomic_use binWidth).1 = HistKernelVariant.atomicDense
        ∨ (BuildHistDispatchKernel pgh rid gmat isDense hist_buffer0 junk
          dispatcher force_atomic_use binWidth).1 = HistKernelVariant.atomicSparse)
      ↔ (dispatcher.use_atomics || force_atomic_use) = true)
    ∧ ((dispatcher.use_atomics || force_atomic_use) = false → isDense = true →
        ((BuildHistDispatchKernel pgh rid gmat isDense hist_buffer0 junk
            dispatcher force_atomic_use binWidth).1 = HistKernelVariant.localDense
          ↔ dispatcher.use_local_hist = true))
    ∧ ((dispatcher.use_atomics || force_atomic_use) = false → isDense = true →
        dispatcher.use_local_hist = false →
        (BuildHistDispatchKernel pgh rid gmat isDense hist_buffer0 junk
          dispatcher force_atomic_use binWidth).1 = HistKernelVariant.bufferedDense)
    ∧ ((dispatcher.use_atomics || force_atomic_use) = false → isDense = false →
        (BuildHistDispatchKernel pgh rid gmat isDense hist_buffer0 junk
          dispatcher force_atomic_use binWidth).1 = HistKernelVariant.bufferedSparse) := by
  obtain ⟨ua, ulh, wgs, bs, nb⟩ := dispatcher
  cases ua <;> cases force_atomic_use <;> cases isDense <;> cases ulh <;>
    simp [BuildHistDispatchKernel]

/-- Witness for C6 at a concrete input: no atomics requested, dense input,
`use_local_hist` set; the local variant is selected. -/
theorem BuildHistDispatchKernel_selection_witness :
    ((false || false) = false) ∧ (true = true) ∧
    ((BuildHistDispatchKernel (fun _ => ((0 : ℤ), (0 : ℤ))) [0]
        ⟨2, 2, fun _ _ => 0, [0, 1, 2], 2, 1, 1, 1⟩ true (fun _ _ => (0, 0))
        (fun _ _ _ => (0, 0)) ⟨false, true, 1, 1, 1⟩ false 1).1
      = HistKernelVariant.localDense ↔ (⟨false, true, 1, 1, 1⟩ : HistDispatcher).use_local_hist = true) :=
  ⟨rfl, rfl,
   (BuildHistDispatchKernel_selection (fun _ => ((0 : ℤ), (0 : ℤ))) [0]
      ⟨2, 2, fun _ _ => 0, [0, 1, 2], 2, 1, 1, 1⟩ true (fun _ _ => (0, 0))
      (fun _ _ _ => (0, 0)) ⟨false, true, 1, 1, 1⟩ false 1).2.1 rfl rfl⟩

/-- C7: on the sparse (non-dense) path both dispatch branches instantiate the
kernel at `uint32_t`, so the dispatched computation does not depend on the
BinIdxType width selected by the outer bin-width dispatch; consequently the
outer dispatch yields the same sparse result for every declared bin-type
size. -/
theorem BuildHistDispatchKernel_sparse_binwidth {α : Type} [AddCommGroup α]
    (pgh : Nat → GradientPairT α) (rid : List Nat) (gmat : GHistIndexMatrix)
    (hist_buffer0 : Nat → Nat → GradientPairT α)
    (junk : Nat → Nat → Nat → GradientPairT α) (dispatcher : HistDispatcher)
    (force_atomic_use : Bool) (w1 w2 s1 s2 : Nat)
    (hs1 : s1 = 1 ∨ s1 = 2 ∨ s1 = 4) (hs2 : s2 = 1 ∨ s2 = 2 ∨ s2 = 4) :
    (BuildHistDispatchKernel pgh rid gmat false hist_buffer0 junk dispatcher
        force_atomic_use w1
      = BuildHistDispatchKernel pgh rid gmat false hist_buffer0 junk dispatcher
        force_atomic_use w2)
    ∧ (BuildHistKernel pgh rid { gmat with binTypeSize := s1 } false
        hist_buffer0 junk dispatcher force_atomic_use
      = BuildHistKernel pgh rid { gmat with binTypeSize := s2 } false
        hist_buffer0 junk dispatcher force_atomic_use) := by
  have hdisp : ∀ v1 v2 : Nat,
      BuildHistDispatchKernel pgh rid gmat false hist_buffer0 junk dispatcher
        force_atomic_use v1
      = BuildHistDispatchKernel pgh rid gmat false hist_buffer0 junk dispatcher
        force_atomic_use v2 := by
    intro v1 v2
    rfl
  refine ⟨hdisp w1 w2, ?_⟩
  have hupd : ∀ s v : Nat,
      BuildHistDispatchKernel pgh rid { gmat with binTypeSize := s } false
        hist_buffer0 junk dispatcher force_atomic_use v
      = BuildHistDispatchKernel pgh rid gmat false hist_buffer0 junk dispatcher
        force_atomic_use v := by
    intro s v
    rfl
  rcases hs1 with rfl | rfl | rfl <;> rcases hs2 with rfl | rfl | rfl <;>
    simp only [BuildHistKernel] <;> rw [hupd, hupd] <;>
    exact congrArg some (hdisp _ _)

/-- Witness for C7 at concrete widths 1 and 4. -/
theorem BuildHistDispatchKernel_sparse_binwidth_witness :
    ((1 : Nat) = 1 ∨ (1 : Nat) = 2 ∨ (1 : Nat) = 4)
    ∧ ((4 : Nat) = 1 ∨ (4 : Nat) = 2 ∨ (4 : Nat) = 4)
    ∧ ((BuildHistDispatchKernel (fun _ => ((0 : ℤ), (0 : ℤ))) [0]
          ⟨2, 2, fun _ _ => 0, [0, 1, 2], 2, 1, 1, 1⟩ false (fun _ _ => (0, 0))
          (fun _ _ _ => (0, 0)) ⟨false, false, 1, 1, 1⟩ false 1
        = BuildHistDispatchKernel (fun _ => ((0 : ℤ), (0 : ℤ))) [0]
          ⟨2, 2, fun _ _ => 0, [0, 1, 2], 2, 1, 1, 1⟩ false (fun _ _ => (0, 0))
          (fun _ _ _ => (0, 0)) ⟨false, false, 1, 1, 1⟩ false 4)
      ∧ (BuildHistKernel (fun _ => ((0 : ℤ), (0 : ℤ))) [0]
          { (⟨2, 2, fun _ _ => 0, [0, 1, 2], 2, 1, 1, 1⟩ : GHistIndexMatrix)
            with binTypeSize := 1 } false (fun _ _ => (0, 0))
          (fun _ _ _ => (0, 0)) ⟨false, false, 1, 1, 1⟩ false
        = BuildHistKernel (fun _ => ((0 : ℤ), (0 : ℤ))) [0]
          { (⟨2, 2, fun _ _ => 0, [0, 1, 2], 2, 1, 1, 1⟩ : GHistIndexMatrix)
            with binTypeSize := 4 } false (fun _ _ => (0, 0))
          (fun _ _ _ => (0, 0)) ⟨false, false, 1, 1, 1⟩ false)) :=
  ⟨by decide, by decide,
   BuildHistDispatchKernel_sparse_binwidth (fun _ => ((0 : ℤ), (0 : ℤ))) [0]
     ⟨2, 2, fun _ _ => 0, [0, 1, 2], 2, 1, 1, 1⟩ (fun _ _ => (0, 0))
     (fun _ _ _ => (0, 0)) ⟨false, false, 1, 1, 1⟩ false 1 4 1 4
     (by decide) (by decide)⟩

/-- C1 counterexample: with 2 dense features of one bin each, a single active
row with gradient pair (1, 1) contributes once per feature, so the device
build's histogram summed over all bins is (2, 2), not the row-set sum (1, 1).
This refutes the claim that the sum over all bins equals the sum over the
node's rows. -/
theorem BuildHist_conservation_counterexample :
    ¬ (histTotal (BuildHistKernelAtomic true 2 (fun _ => ((1 : ℤ), (1 : ℤ)))
        [0] (fun _ => 0) (fun j => [0, 1, 2].getD j 0) 2 1) 2
      = rowSetTotal (fun _ => ((1 : ℤ), (1 : ℤ))) [0]) := by
  decide

/-- C1 (amended): for the dense atomic device build with a positive work-group
size and every cell's global bin valid, the histogram summed over all bins
equals `n_columns` times the sum over the node's rows of the gradient pairs —
each row is counted once per feature, and likewise for the hessian. -/
theorem BuildHistKernelAtomic_conservation {α : Type} [AddCommGroup α]
    (n_columns : Nat) (pgh : Nat → GradientPairT α) (rid : List Nat)
    (gradient_index offsets : Nat → Nat) (nbins work_group_size : Nat)
    (hw : 0 < work_group_size)
    (hvalid : ∀ i, i < rid.length → ∀ j, j < n_columns →
      cellBin true n_columns gradient_index offsets (rid.getD i 0) j < nbins) :
    histTotal (BuildHistKernelAtomic true n_columns pgh rid gradient_index
      offsets nbins work_group_size) nbins
      = n_columns • rowSetTotal pgh rid := by
  unfold histTotal
  have h1 : ∀ bin ∈ List.range nbins,
      BuildHistKernelAtomic true n_columns pgh rid gradient_index offsets nbins
        work_group_size bin
      = histSpec true n_columns pgh rid gradient_index offsets nbins bin := by
    intro bin _
    exact BuildHistKernelAtomic_eq_histSpec true n_columns pgh rid
      gradient_index offsets nbins work_group_size hw bin
  rw [List.map_congr_left h1]
  exact histSpec_total true n_columns pgh rid gradient_index offsets nbins hvalid

/-- Witness for the amended C1: 2 rows, 2 features of 2 bins each;
the total is twice the row-set sum. -/
theorem BuildHistKernelAtomic_conservation_witness :
    (0 < 1)
    ∧ (∀ i, i < [0, 1].length → ∀ j, j < 2 →
        cellBin true 2 (fun pos => pos % 2) (fun k => [0, 2, 4].getD k 0)
          ([0, 1].getD i 0) j < 4)
    ∧ histTotal (BuildHistKernelAtomic true 2
        (fun r => (((r : ℤ) + 1), ((r : ℤ) + 2))) [0, 1] (fun pos => pos % 2)
        (fun k => [0, 2, 4].getD k 0) 4 1) 4
      = 2 • rowSetTotal (fun r => (((r : ℤ) + 1), ((r : ℤ) + 2))) [0, 1] :=
  ⟨by decide, by decide,
   BuildHistKernelAtomic_conservation 2
     (fun r => (((r : ℤ) + 1), ((r : ℤ) + 2))) [0, 1] (fun pos => pos % 2)
     (fun k => [0, 2, 4].getD k 0) 4 1 (by decide) (by decide)⟩

/-- C2: on identical dense inputs satisfying the binned-matrix invariants,
the three device build variants — A buffered, B buffered with local private
bins, C atomic — produce identical histograms (exactly, in the exact
arithmetic model), for every scratch prior content and every uninitialized
`hist_fast` content. -/
theorem DeviceBuildVariants_equal {α : Type} [AddCommGroup α]
    (n_columns : Nat) (pgh : Nat → GradientPairT α) (rid : List Nat)
    (gradient_index offsets : Nat → Nat)
    (nbins block_size nblocks work_group_size : Nat)
    (hist_buffer0 : Nat → Nat → GradientPairT α)
    (junk : Nat → Nat → Nat → GradientPairT α)
    (hmono : ∀ j, j < n_columns → offsets j ≤ offsets (j + 1))
    (h00 : offsets 0 = 0) (hFn : offsets n_columns = nbins)
    (hcell : ∀ i, i < rid.length → ∀ j, j < n_columns →
      gradient_index (n_columns * rid.getD i 0 + j)
        < offsets (j + 1) - offsets j)
    (hcover : rid.length ≤ nblocks * block_size) (hw : 0 < work_group_size)
    (bin : Nat) (hbin : bin < nbins) :
    BuildHistKernelBuffered true n_columns pgh rid gradient_index offsets nbins
      block_size nblocks bin
      = BuildHistKernelAtomic true n_columns pgh rid gradient_index offsets
          nbins work_group_size bin
    ∧ BuildHistKernelLocal n_columns pgh rid gradient_index offsets nbins
        block_size nblocks hist_buffer0 junk bin
      = BuildHistKernelAtomic true n_columns pgh rid gradient_index offsets
          nbins work_group_size bin := by
  have hbuf := BuildHistKernelBuffered_eq_histSpec true n_columns pgh rid
    gradient_index offsets nbins block_size nblocks hcover bin
  have hat := BuildHistKernelAtomic_eq_histSpec true n_columns pgh rid
    gradient_index offsets nbins work_group_size hw bin
  have hloc := BuildHistKernelLocal_eq_buffered n_columns pgh rid
    gradient_index offsets nbins block_size nblocks hist_buffer0 junk hmono h00
    hFn hcell bin hbin
  exact ⟨hbuf.trans hat.symm, (hloc.trans hbuf).trans hat.symm⟩

/-- Witness for C2 at a concrete dense input: 2 rows, 2 features of 2 bins
each, nonzero scratch prior content and `hist_fast` garbage. -/
theorem DeviceBuildVariants_equal_witness :
    (∀ j, j < 2 → [0, 2, 4].getD j 0 ≤ [0, 2, 4].getD (j + 1) 0)
    ∧ ([0, 2, 4].getD 0 0 = 0)
    ∧ ([0, 2, 4].getD 2 0 = 4)
    ∧ (∀ i, i < [0, 1].length → ∀ j, j < 2 →
        (fun pos => pos % 2) (2 * [0, 1].getD i 0 + j)
          < [0, 2, 4].getD (j + 1) 0 - [0, 2, 4].getD j 0)
    ∧ ([0, 1].length ≤ 1 * 2)
    ∧ (0 < 2)
    ∧ (3 < 4)
    ∧ (BuildHistKernelBuffered true 2 (fun r => (((r : ℤ) + 1), ((r : ℤ) + 2)))
        [0, 1] (fun pos => pos % 2) (fun k => [0, 2, 4].getD k 0) 4 2 1 3
      = BuildHistKernelAtomic true 2 (fun r => (((r : ℤ) + 1), ((r : ℤ) + 2)))
        [0, 1] (fun pos => pos % 2) (fun k => [0, 2, 4].getD k 0) 4 2 3)
    ∧ (BuildHistKernelLocal 2 (fun r => (((r : ℤ) + 1), ((r : ℤ) + 2)))
        [0, 1] (fun pos => pos % 2) (fun k => [0, 2, 4].getD k 0) 4 2 1
        (fun _ _ => (7, 9)) (fun _ _ _ => (5, 6)) 3
      = BuildHistKernelAtomic true 2 (fun r => (((r : ℤ) + 1), ((r : ℤ) + 2)))
        [0, 1] (fun pos => pos % 2) (fun k => [0, 2, 4].getD k 0) 4 2 3) := by
  have h := DeviceBuildVariants_equal 2
    (fun r => (((r : ℤ) + 1), ((r : ℤ) + 2))) [0, 1] (fun pos => pos % 2)
    (fun k => [0, 2, 4].getD k 0) 4 2 1 2 (fun _ _ => (7, 9))
    (fun _ _ _ => (5, 6)) (by decide) (by decide) (by decide) (by decide)
    (by decide) (by decide) 3 (by decide)
  exact ⟨by decide, by decide, by decide, by decide, by decide, by decide,
    by decide, h.1, h.2⟩

/-- C10: BuildHistKernelLocal followed by ReduceHist yields the same final
histogram for every initial content of the hist_buffer scratch: although this
variant never zero-fills the scratch, every (block, bin) entry that ReduceHist
reads is first overwritten by the feature write-back, so two runs differing
only in the scratch's prior contents agree on every bin below `nbins`. -/
theorem BuildHistKernelLocal_scratch_independent {α : Type} [AddCommGroup α]
    (n_columns : Nat) (pgh : Nat → GradientPairT α) (rid : List Nat)
    (gradient_index offsets : Nat → Nat) (nbins block_size nblocks : Nat)
    (hist_buffer0 hist_buffer0' : Nat → Nat → GradientPairT α)
    (junk : Nat → Nat → Nat → GradientPairT α)
    (hmono : ∀ j, j < n_columns → offsets j ≤ offsets (j + 1))
    (h00 : offsets 0 = 0) (hFn : offsets n_columns = nbins)
    (bin : Nat) (hbin : bin < nbins) :
    BuildHistKernelLocal n_columns pgh rid gradient_index offsets nbins
      block_size nblocks hist_buffer0 junk bin
      = BuildHistKernelLocal n_columns pgh rid gradient_index offsets nbins
          block_size nblocks hist_buffer0' junk bin := by
  unfold BuildHistKernelLocal
  rw [ReduceHist_eval, ReduceHist_eval]
  apply congrArg
  apply List.map_congr_left
  intro block _
  rw [BuildHistLocalBlock_covered_eval n_columns pgh rid gradient_index offsets
    block_size block (junk block) (hist_buffer0 block) hmono h00 bin (by omega)]
  rw [BuildHistLocalBlock_covered_eval n_columns pgh rid gradient_index offsets
    block_size block (junk block) (hist_buffer0' block) hmono h00 bin (by omega)]

/-- Witness for C10 at a concrete input with two different scratch priors. -/
theorem BuildHistKernelLocal_scratch_independent_witness :
    (∀ j, j < 2 → [0, 2, 4].getD j 0 ≤ [0, 2, 4].getD (j + 1) 0)
    ∧ ([0, 2, 4].getD 0 0 = 0)
    ∧ ([0, 2, 4].getD 2 0 = 4)
    ∧ (1 < 4)
    ∧ BuildHistKernelLocal 2 (fun r => (((r : ℤ) + 1), ((r : ℤ) + 2))) [0, 1]
        (fun pos => pos % 2) (fun k => [0, 2, 4].getD k 0) 4 2 1
        (fun _ _ => (100, 200)) (fun _ _ _ => (5, 6)) 1
      = BuildHistKernelLocal 2 (fun r => (((r : ℤ) + 1), ((r : ℤ) + 2))) [0, 1]
        (fun pos => pos % 2) (fun k => [0, 2, 4].getD k 0) 4 2 1
        (fun _ _ => (0, 0)) (fun _ _ _ => (5, 6)) 1 :=
  ⟨by decide, by decide, by decide, by decide,
   BuildHistKernelLocal_scratch_independent 2
     (fun r => (((r : ℤ) + 1), ((r : ℤ) + 2))) [0, 1] (fun pos => pos % 2)
     (fun k => [0, 2, 4].getD k 0) 4 2 1 (fun _ _ => (100, 200))
     (fun _ _ => (0, 0)) (fun _ _ _ => (5, 6)) (by decide) (by decide)
     (by decide) 1 (by decide)⟩

theorem mem_ite_nil {β : Type} (c : Prop) [Decidable c] (L : List β) (a : β) :
    a ∈ (if c then L else []) ↔ c ∧ a ∈ L := by
  by_cases hc : c <;> simp [hc]

/-- C9: every write into histogram storage by the device build kernels is in
bounds.  The buffered and atomic kernels accumulate only when the computed
global bin index is strictly below `nbins` (so sentinel-bin cells contribute
nothing); and under the preconditions that every stored feature-local bin
index is below its feature's bin count, that per-feature bin counts are at
most `max_num_bins ≤ kMaxNumBins`, and that every feature's offset range ends
at or before `nbins`, every `hist_fast` access and every block-slice write of
the local kernel is in bounds. -/
theorem DeviceBuild_write_accesses_in_bounds (isDense : Bool) (n_columns : Nat)
    (rid : List Nat) (gradient_index offsets : Nat → Nat)
    (nbins block_size nblocks work_group_size max_num_bins kMaxNumBins : Nat)
    (hcell : ∀ i, i < rid.length → ∀ fid, fid < n_columns →
      gradient_index (n_columns * rid.getD i 0 + fid)
        < offsets (fid + 1) - offsets fid)
    (hmaxb : ∀ fid, fid < n_columns →
      offsets (fid + 1) - offsets fid ≤ max_num_bins)
    (hkmax : max_num_bins ≤ kMaxNumBins)
    (hoffs : ∀ fid, fid < n_columns → offsets (fid + 1) ≤ nbins) :
    (∀ a ∈ BuildHistBufferedWriteAccesses isDense n_columns rid gradient_index
        offsets nbins block_size nblocks, a < nbins)
    ∧ (∀ a ∈ BuildHistAtomicWriteAccesses isDense n_columns rid gradient_index
        offsets nbins work_group_size, a < nbins)
    ∧ (∀ a ∈ BuildHistLocalFastAccesses n_columns rid gradient_index offsets
        block_size nblocks, a < kMaxNumBins)
    ∧ (∀ a ∈ BuildHistLocalSliceAccesses n_columns offsets nblocks,
        a < nbins) := by
  refine ⟨?_, ?_, ?_, ?_⟩
  · intro a ha
    unfold BuildHistBufferedWriteAccesses at ha
    simp only [List.mem_flatMap, List.mem_range, mem_ite_nil,
      List.mem_singleton] at ha
    obtain ⟨block, _, idx, _, _, j, _, hguard, rfl⟩ := ha
    exact hguard
  · intro a ha
    unfold BuildHistAtomicWriteAccesses at ha
    simp only [List.mem_flatMap, List.mem_range, mem_ite_nil,
      List.mem_singleton] at ha
    obtain ⟨i, _, j, _, _, hguard, rfl⟩ := ha
    exact hguard
  · intro a ha
    unfold BuildHistLocalFastAccesses at ha
    simp only [List.mem_flatMap, List.mem_range, mem_ite_nil,
      List.mem_singleton, List.mem_append] at ha
    obtain ⟨block, _, fid, hfid, hseg⟩ := ha
    have hm := hmaxb fid hfid
    rcases hseg with (hr | ⟨idx, _, hi, rfl⟩) | hr
    · omega
    · have := hcell (block * block_size + idx) hi fid hfid
      omega
    · omega
  · intro a ha
    unfold BuildHistLocalSliceAccesses at ha
    simp only [List.mem_flatMap, List.mem_range, List.mem_map] at ha
    obtain ⟨block, _, fid, hfid, bin, hbin, rfl⟩ := ha
    have := hoffs fid hfid
    omega

/-- Witness for C9 at a concrete dense input with `kMaxNumBins = 256`. -/
theorem DeviceBuild_write_accesses_in_bounds_witness :
    (∀ i, i < [0, 1].length → ∀ fid, fid < 2 →
      (fun pos => pos % 2) (2 * [0, 1].getD i 0 + fid)
        < [0, 2, 4].getD (fid + 1) 0 - [0, 2, 4].getD fid 0)
    ∧ (∀ fid, fid < 2 → [0, 2, 4].getD (fid + 1) 0 - [0, 2, 4].getD fid 0 ≤ 2)
    ∧ (2 ≤ 256)
    ∧ (∀ fid, fid < 2 → [0, 2, 4].getD (fid + 1) 0 ≤ 4)
    ∧ (∀ a ∈ BuildHistBufferedWriteAccesses true 2 [0, 1] (fun pos => pos % 2)
        (fun k => [0, 2, 4].getD k 0) 4 2 1, a < 4)
    ∧ (∀ a ∈ BuildHistAtomicWriteAccesses true 2 [0, 1] (fun pos => pos % 2)
        (fun k => [0, 2, 4].getD k 0) 4 2, a < 4)
    ∧ (∀ a ∈ BuildHistLocalFastAccesses 2 [0, 1] (fun pos => pos % 2)
        (fun k => [0, 2, 4].getD k 0) 2 1, a < 256)
    ∧ (∀ a ∈ BuildHistLocalSliceAccesses 2 (fun k => [0, 2, 4].getD k 0) 1,
        a < 4) := by
  have h := DeviceBuild_write_accesses_in_bounds true 2 [0, 1]
    (fun pos => pos % 2) (fun k => [0, 2, 4].getD k 0) 4 2 1 2 2 256
    (by decide) (by decide) (by decide) (by decide)
  exact ⟨by decide, by decide, by decide, by decide, h.1, h.2.1, h.2.2.1,
    h.2.2.2⟩

/-- C4: in ColumnSplitHelper::Partition, the per-thread decision and missing
bit-vector replicas are reduced by bitwise OR into the worker-local vectors,
the worker-local decision vectors are all-reduced across workers with bitwise
OR and the missing vectors with bitwise AND, and the second partitioning pass
consumes exactly the aggregated bits: a decision bit is set exactly when some
thread of some worker set it, and a missing bit survives exactly when every
worker has some thread that set it. -/
theorem ColumnSplitPartition_spec {γ : Type} (n_workers n_threads n_bytes : Nat)
    (mask_decision mask_missing : Nat → Nat → List Nat)
    (partitionByMask : List Nat → List Nat → γ)
    (hw : 0 < n_workers) (ht : 0 < n_threads)
    (hlen_d : ∀ wk, wk < n_workers → ∀ t, t < n_threads →
      (mask_decision wk t).length = n_bytes)
    (hlen_m : ∀ wk, wk < n_workers → ∀ t, t < n_threads →
      (mask_missing wk t).length = n_bytes)
    (r : Nat) (hr : r < 8 * n_bytes) :
    (bvTest (ColumnSplitPartition n_workers n_threads mask_decision
        mask_missing partitionByMask).decision_storage r = true
      ↔ ∃ wk, wk < n_workers ∧ ∃ t, t < n_threads
          ∧ bvTest (mask_decision wk t) r = true)
    ∧ (bvTest (ColumnSplitPartition n_workers n_threads mask_decision
        mask_missing partitionByMask).missing_storage r = true
      ↔ ∀ wk, wk < n_workers → ∃ t, t < n_threads
          ∧ bvTest (mask_missing wk t) r = true)
    ∧ (ColumnSplitPartition n_workers n_threads mask_decision mask_missing
        partitionByMask).second_pass
      = partitionByMask
          (ColumnSplitPartition n_workers n_threads mask_decision mask_missing
            partitionByMask).decision_storage
          (ColumnSplitPartition n_workers n_threads mask_decision mask_missing
            partitionByMask).missing_storage := by
  have hr8 : r / 8 < n_bytes := by omega
  have hne_d : (List.range n_workers).map
      (fun wk => ReduceThreadLocal (mask_decision wk) n_threads) ≠ [] := by
    simp only [ne_eq, List.map_eq_nil_iff, List.range_eq_nil]
    omega
  have hne_m : (List.range n_workers).map
      (fun wk => ReduceThreadLocal (mask_missing wk) n_threads) ≠ [] := by
    simp only [ne_eq, List.map_eq_nil_iff, List.range_eq_nil]
    omega
  have hlen_rd : ∀ x ∈ (List.range n_workers).map
      (fun wk => ReduceThreadLocal (mask_decision wk) n_threads),
      x.length = n_bytes := by
    intro x hx
    simp only [List.mem_map, List.mem_range] at hx
    obtain ⟨wk, hwk, rfl⟩ := hx
    exact (ReduceThreadLocal_spec (mask_decision wk) n_threads n_bytes ht
      (hlen_d wk hwk) r hr8).1
  have hlen_rm : ∀ x ∈ (List.range n_workers).map
      (fun wk => ReduceThreadLocal (mask_missing wk) n_threads),
      x.length = n_bytes := by
    intro x hx
    simp only [List.mem_map, List.mem_range] at hx
    obtain ⟨wk, hwk, rfl⟩ := hx
    exact (ReduceThreadLocal_spec (mask_missing wk) n_threads n_bytes ht
      (hlen_m wk hwk) r hr8).1
  obtain ⟨_, hiff_d⟩ := AllreduceBitwiseOR_spec _ n_bytes hne_d hlen_rd r hr8
  obtain ⟨_, hiff_m⟩ := AllreduceBitwiseAND_spec _ n_bytes hne_m hlen_rm r hr8
  refine ⟨?_, ?_, rfl⟩
  · rw [show (ColumnSplitPartition n_workers n_threads mask_decision
        mask_missing partitionByMask).decision_storage
      = AllreduceBitwiseOR ((List.range n_workers).map
          (fun wk => ReduceThreadLocal (mask_decision wk) n_threads)) from rfl]
    rw [hiff_d]
    constructor
    · rintro ⟨x, hx, htx⟩
      simp only [List.mem_map, List.mem_range] at hx
      obtain ⟨wk, hwk, rfl⟩ := hx
      have := (ReduceThreadLocal_spec (mask_decision wk) n_threads n_bytes ht
        (hlen_d wk hwk) r hr8).2.mp htx
      exact ⟨wk, hwk, this⟩
    · rintro ⟨wk, hwk, t, htn, htt⟩
      refine ⟨ReduceThreadLocal (mask_decision wk) n_threads, ?_, ?_⟩
      · simp only [List.mem_map, List.mem_range]
        exact ⟨wk, hwk, rfl⟩
      · exact (ReduceThreadLocal_spec (mask_decision wk) n_threads n_bytes ht
          (hlen_d wk hwk) r hr8).2.mpr ⟨t, htn, htt⟩
  · rw [show (ColumnSplitPartition n_workers n_threads mask_decision
        mask_missing partitionByMask).missing_storage
      = AllreduceBitwiseAND ((List.range n_workers).map
          (fun wk => ReduceThreadLocal (mask_missing wk) n_threads)) from rfl]
    rw [hiff_m]
    constructor
    · intro hall wk hwk
      have hx : ReduceThreadLocal (mask_missing wk) n_threads
          ∈ (List.range n_workers).map
            (fun wk2 => ReduceThreadLocal (mask_missing wk2) n_threads) := by
        simp only [List.mem_map, List.mem_range]
        exact ⟨wk, hwk, rfl⟩
      exact (ReduceThreadLocal_spec (mask_missing wk) n_threads n_bytes ht
        (hlen_m wk hwk) r hr8).2.mp (hall _ hx)
    · intro hall x hx
      simp only [List.mem_map, List.mem_range] at hx
      obtain ⟨wk, hwk, rfl⟩ := hx
      exact (ReduceThreadLocal_spec (mask_missing wk) n_threads n_bytes ht
        (hlen_m wk hwk) r hr8).2.mpr (hall wk hwk)

/-- Witness for C4: two workers with two threads each over a one-byte bit
vector; the aggregated decision bit 0 is set (worker 0 thread 1 set it), and
the aggregated missing bit 0 survives the AND (every worker has a thread that
set it). -/
theorem ColumnSplitPartition_spec_witness :
    (0 < 2) ∧ (0 < 2)
    ∧ (∀ wk, wk < 2 → ∀ t, t < 2 →
        ((fun wk2 t2 => [(wk2 + t2) % 2]) wk t : List Nat).length = 1)
    ∧ (∀ wk, wk < 2 → ∀ t, t < 2 →
        ((fun wk2 t2 => [(wk2 + t2) % 2]) wk t : List Nat).length = 1)
    ∧ (0 < 8 * 1)
    ∧ ((bvTest (ColumnSplitPartition 2 2 (fun wk2 t2 => [(wk2 + t2) % 2])
          (fun wk2 t2 => [(wk2 + t2) % 2]) (fun d m => (d, m))).decision_storage
          0 = true
        ↔ ∃ wk, wk < 2 ∧ ∃ t, t < 2
            ∧ bvTest ((fun wk2 t2 => [(wk2 + t2) % 2]) wk t) 0 = true)
      ∧ (bvTest (ColumnSplitPartition 2 2 (fun wk2 t2 => [(wk2 + t2) % 2])
          (fun wk2 t2 => [(wk2 + t2) % 2]) (fun d m => (d, m))).missing_storage
          0 = true
        ↔ ∀ wk, wk < 2 → ∃ t, t < 2
            ∧ bvTest ((fun wk2 t2 => [(wk2 + t2) % 2]) wk t) 0 = true)
      ∧ (ColumnSplitPartition 2 2 (fun wk2 t2 => [(wk2 + t2) % 2])
          (fun wk2 t2 => [(wk2 + t2) % 2]) (fun d m => (d, m))).second_pass
        = (fun d m => (d, m))
            (ColumnSplitPartition 2 2 (fun wk2 t2 => [(wk2 + t2) % 2])
              (fun wk2 t2 => [(wk2 + t2) % 2]) (fun d m => (d, m))).decision_storage
            (ColumnSplitPartition 2 2 (fun wk2 t2 => [(wk2 + t2) % 2])
              (fun wk2 t2 => [(wk2 + t2) % 2]) (fun d m => (d, m))).missing_storage) :=
  ⟨by decide, by decide, by decide, by decide, by decide,
   ColumnSplitPartition_spec 2 2 1 (fun wk2 t2 => [(wk2 + t2) % 2])
     (fun wk2 t2 => [(wk2 + t2) % 2]) (fun d m => (d, m)) (by decide)
     (by decide) (by decide) (by decide) 0 (by decide)⟩

/-- C8 counterexample: the claim that the shared row-index buffer is not
mutated until AddSplit is false: the merge phase (MergeToArray), which
precedes AddSplit in program order, already writes the partitioned rows into
the shared buffer.  Concretely, for a node owning rows `[0, 1]` where row 0
goes right and row 1 goes left, the buffer after the merge phase is `[1, 0]`,
differing from the initial buffer, while AddSplit has not yet run. -/
theorem UpdatePosition_buffer_mutation_counterexample :
    UPPhase.merge.idx < UPPhase.addSplit.idx ∧
    (UpdatePositionState ⟨[0, 1], fun _ => (0, 2)⟩ 0 1 2
        (fun r => decide (r = 1)) UPPhase.merge).row_indices
      ≠ (⟨[0, 1], fun _ => (0, 2)⟩ : RowSetState).row_indices := by
  constructor
  · decide
  · decide

/-- C8 (amended): each UpdatePosition is atomic from the row-set's
perspective up to the merge phase: every phase strictly before the merge
leaves both the shared row-index buffer and the node ranges unchanged (so a
failure before the merge leaves the row-set collection untouched), and the
node ranges are not mutated by any phase before AddSplit. -/
theorem UpdatePositionState_mutation_order (s0 : RowSetState)
    (nid left_child right_child : Nat) (decideLeft : Nat → Bool)
    (ph : UPPhase) :
    (ph.idx < UPPhase.merge.idx →
      UpdatePositionState s0 nid left_child right_child decideLeft ph = s0)
    ∧ (ph ≠ UPPhase.addSplit →
      (UpdatePositionState s0 nid left_child right_child decideLeft ph).elems
        = s0.elems) := by
  cases ph with
  | findConditions => exact ⟨fun _ => rfl, fun _ => rfl⟩
  | initBuilder => exact ⟨fun _ => rfl, fun _ => rfl⟩
  | partitionBlocks => exact ⟨fun _ => rfl, fun _ => rfl⟩
  | calcOffsets => exact ⟨fun _ => rfl, fun _ => rfl⟩
  | merge => exact ⟨fun h => absurd h (by decide), fun _ => rfl⟩
  | addSplit => exact ⟨fun h => absurd h (by decide), fun h => absurd rfl h⟩

/-- Witness for the amended C8: at a concrete state, the offset-computation
phase leaves the state unchanged and the merge phase leaves the node ranges
unchanged. -/
theorem UpdatePositionState_mutation_order_witness :
    (UpdatePositionState ⟨[0, 1], fun _ => (0, 2)⟩ 0 1 2
        (fun r => decide (r = 1)) UPPhase.calcOffsets
      = (⟨[0, 1], fun _ => (0, 2)⟩ : RowSetState))
    ∧ ((UpdatePositionState ⟨[0, 1], fun _ => (0, 2)⟩ 0 1 2
        (fun r => decide (r = 1)) UPPhase.merge).elems
      = (⟨[0, 1], fun _ => (0, 2)⟩ : RowSetState).elems) :=
  ⟨(UpdatePositionState_mutation_order ⟨[0, 1], fun _ => (0, 2)⟩ 0 1 2
      (fun r => decide (r = 1)) UPPhase.calcOffsets).1 (by decide),
   (UpdatePositionState_mutation_order ⟨[0, 1], fun _ => (0, 2)⟩ 0 1 2
      (fun r => decide (r = 1)) UPPhase.merge).2 (by decide)⟩
